import Mathlib

/-!
# dbmigrator: state reconciliation and transactional apply

A shallow embedding of `service.go` (package `dbmigrator`).

* Go strings are lists of characters (`List Char`).
* Versions are natural numbers: the scanner reads a version from four decimal
  digits, and the engine records no other version in the bookkeeping table.
* `log.Fatalf` ends the process: every function that can reach one returns
  `Except Fatal _`, with one constructor of `Fatal` per call site.
* The database handle is an explicit state (`Database`) threaded through the
  functions, together with a `Driver` that says what opaque SQL text does and
  which statements fail.
* Goroutines are joined before their results are used, so each function is
  modelled by the sequential composition of its tasks, in the order in which
  the source starts them.
* A file is read with `bufio.Scanner`, whose buffer holds 64 KiB: the loop
  `for scanner.Scan()` sees the lines of the text up to the first line that
  does not fit.
* The SQL text of a migration acts on the `schema` component of the database
  and not on the bookkeeping table; a transaction that is not committed leaves
  the stored state as it was at `Begin`.
-/

namespace DbMigrator

/-! ## Data model (`types.go`) -/

/-- The `migrationContents` struct: the two SQL bodies of a migration file. -/
structure migrationContents where
  up : List Char
  down : List Char
deriving DecidableEq, Repr

/-- The `migrationFileInfo` struct; `contents` is the nullable pointer. -/
structure migrationFileInfo where
  version : Nat
  file : List Char
  contents : Option migrationContents
deriving DecidableEq, Repr

/-- The `MigrationsTable` struct: one bookkeeping row. The timestamp is a
number of clock ticks. -/
structure MigrationsTable where
  Version : Nat
  InstalledAt : Nat
deriving DecidableEq, Repr

/-- The `MigrationState` struct. -/
structure MigrationState where
  AvailableVersion : Nat
  InstalledVersion : Nat
  Migrations : List migrationFileInfo
deriving DecidableEq, Repr

/-- Every `log.Fatalf` / `log.Fatal` call site of `service.go`, with the
values its message is formatted from. -/
inductive Fatal where
  /-- "Installed migration version (%d) is higher than highest available migration (%d)." -/
  | installedAhead (installed available : Nat)
  /-- "Error beginning transaction" -/
  | beginTx
  /-- "Error applying migration (Exec) %d" -/
  | applyExec (version : Nat)
  /-- "Error inserting migration version into migrations table %d" -/
  | insertVersion (version : Nat)
  /-- "Error removing version from migrations table %d" -/
  | removeVersion (version : Nat)
  /-- "Error committing migration %d" -/
  | commitTx (version : Nat)
  /-- "No migrations to revert." -/
  | nothingToRevert
  /-- "Failed to find currently installed migration  %d" -/
  | installedNotFound (version : Nat)
  /-- "Error reading migrations directory" -/
  | readDir
  /-- "Error parsing migration version" -/
  | parseVersion
  /-- "Duplicate migration version: %d" -/
  | duplicateVersion (version : Nat)
  /-- "Error getting migration version" -/
  | getVersion
  /-- "Error opening migration file" -/
  | openFile
  /-- "Duplicate up section in migration %d" -/
  | duplicateUp (version : Nat)
  /-- "Duplicate down section in migration %d" -/
  | duplicateDown (version : Nat)
  /-- "Missing -- +up section in migration %d" -/
  | missingUp (version : Nat)
  /-- "Missing -- +down section in migration %d" -/
  | missingDown (version : Nat)
  /-- "Error checking if migrations table exists" -/
  | checkTable
  /-- "Error creating migrations table" -/
  | createTable
  /-- The run-time panic of indexing a nil match (`matches[1]`). -/
  | nilMatch
  /-- The run-time panic of reading through a nil `contents` pointer. -/
  | nilContents
deriving DecidableEq, Repr

deriving instance DecidableEq for Except

/-! ## Regular expressions of `service.go`

Each of the three patterns is embedded as the backtracking matcher of its own
shape; Go's `regexp` prefers the leftmost match and, among those, the one a
backtracking engine finds first. -/

/-- The class `\s` of Go's `regexp`: tab, newline, form feed, carriage return, space. -/
def isSpace (c : Char) : Bool :=
  c == '\t' || c == '\n' || c == '\x0c' || c == '\r' || c == ' '

/-- The class `\d`. -/
def isDigit (c : Char) : Bool := decide ('0' ≤ c) && decide (c ≤ '9')

/-- The class `[\/|\\]`: slash, vertical bar, backslash. -/
def isSep (c : Char) : Bool := c == '/' || c == '|' || c == '\\'

/-- The literal `\.sql` at the head of the input. -/
def sqlAt (l : List Char) : Bool := ['.', 's', 'q', 'l'].isPrefixOf l

/-- The tail `\S+\.sql` at the head of the input. -/
def nameSqlAt : List Char → Bool
  | [] => false
  | c :: t => !isSpace c && (nameSqlAt t || sqlAt t)

/-- The part `[\/|\\](\d{4})_\S+\.sql` at the head of the input; returns the
text of the capture group. -/
def sepVersionAt : List Char → Option (List Char)
  | s :: d1 :: d2 :: d3 :: d4 :: u :: t =>
    if isSep s && isDigit d1 && isDigit d2 && isDigit d3 && isDigit d4 && u == '_' && nameSqlAt t
    then some [d1, d2, d3, d4] else none
  | _ => none

/-- The whole pattern at the head of the input: `.+` is greedy, so a longer
run of non-newline characters is tried before a shorter one. -/
def migrationRxAt : List Char → Option (List Char)
  | [] => none
  | c :: t =>
    if c == '\n' then none
    else match migrationRxAt t with
      | some g => some g
      | none => sepVersionAt t

/-- The call `re.FindStringSubmatch(path)` for the pattern
`.+[\/|\\](\d{4})_\S+\.sql`, reduced to its capture group `matches[1]`
(`none` is the nil result). The leftmost starting point wins. -/
def FindStringSubmatch : List Char → Option (List Char)
  | [] => none
  | c :: t =>
    match migrationRxAt (c :: t) with
    | some g => some g
    | none => FindStringSubmatch t

/-- Case-insensitive literal at the head of the input (`(?i)`); the literals
used are `+up` and `+down`, whose letters fold only with their ASCII capitals. -/
def foldLitAt : List Char → List Char → Bool
  | [], _ => true
  | _ :: _, [] => false
  | p :: ps, c :: t => c.toLower == p && foldLitAt ps t

/-- The part `\s*` followed by the literal, at the head of the input. -/
def spacesLitAt (lit : List Char) : List Char → Bool
  | [] => foldLitAt lit []
  | c :: t => (isSpace c && spacesLitAt lit t) || foldLitAt lit (c :: t)

/-- The pattern `(?i)--\s*\+word(\s*)?(.+)?` at the head of the input; both
trailing groups are optional and match the empty string. -/
def markerAt (word : List Char) : List Char → Bool
  | a :: b :: t => a == '-' && b == '-' && spacesLitAt ('+' :: word) t
  | _ => false

/-- The call `MatchString` for a marker pattern: a match may start anywhere in the line. -/
def markerMatch (word : List Char) : List Char → Bool
  | [] => markerAt word []
  | c :: t => markerAt word (c :: t) || markerMatch word t

/-- The call `upRx.MatchString(line)`. -/
def upRx (line : List Char) : Bool := markerMatch ['u', 'p'] line

/-- The call `downRx.MatchString(line)`. -/
def downRx (line : List Char) : Bool := markerMatch ['d', 'o', 'w', 'n'] line

/-! ## Reading a file line by line (`bufio.Scanner` with `ScanLines`) -/

/-- The constant `bufio.MaxScanTokenSize`: the size of the scanner's buffer. -/
def MaxScanTokenSize : Nat := 64 * 1024

/-- Length of a string in bytes (UTF-8). -/
def byteLen : List Char → Nat
  | [] => 0
  | c :: t => c.utf8Size + byteLen t

/-- The lines of a text: the pieces between newline characters; a text that
ends in a newline has no further, empty line after it. -/
def rawLines : List Char → List (List Char)
  | [] => []
  | c :: t =>
    if c == '\n' then [] :: rawLines t
    else match rawLines t with
      | [] => [[c]]
      | l :: ls => (c :: l) :: ls

/-- The helper `dropCR` of `bufio.ScanLines`: one trailing carriage return is removed. -/
def dropCR (line : List Char) : List Char :=
  if line.getLast? = some '\r' then line.dropLast else line

/-- A line fits the scanner when it is shorter than the buffer; the buffer
must also hold the newline that ends the line. -/
def fitsBuffer (line : List Char) : Bool := decide (byteLen line < MaxScanTokenSize)

/-- The successive values of `scanner.Text()` in `for scanner.Scan()`: the
lines of the text, without their line ends, up to the first line that does not
fit the buffer, where `Scan` returns false (`scanner.Err()` is never read). -/
def scanLines (text : List Char) : List (List Char) :=
  ((rawLines text).takeWhile fitsBuffer).map dropCR

/-! ## Migration content parser (`fillMigrationContents`) -/

/-- The local variables of the scanning loop. -/
structure fillState where
  foundUp : Bool
  foundDown : Bool
  capturingSection : Nat
  upContents : List Char
  downContents : List Char
deriving DecidableEq, Repr

/-- The values of the local variables before the loop. -/
def fillState.init : fillState := ⟨false, false, 0, [], []⟩

/-- One iteration of the loop body on `line`. -/
def fillStep (version : Nat) (st : fillState) (line : List Char) : Except Fatal fillState :=
  if upRx line then
    if st.foundUp then .error (.duplicateUp version)
    else .ok { st with foundUp := true, capturingSection := 1 }
  else if downRx line then
    if st.foundDown then .error (.duplicateDown version)
    else .ok { st with foundDown := true, capturingSection := 2 }
  else if st.capturingSection = 1 then
    .ok { st with upContents := st.upContents ++ line ++ ['\n'] }
  else if st.capturingSection = 2 then
    .ok { st with downContents := st.downContents ++ line ++ ['\n'] }
  else .ok st

/-- The loop `for scanner.Scan()` over the scanned lines. -/
def fillLoop (version : Nat) : fillState → List (List Char) → Except Fatal fillState
  | st, [] => .ok st
  | st, line :: rest =>
    match fillStep version st line with
    | .error e => .error e
    | .ok st1 => fillLoop version st1 rest

/-- Lines 324 to 370 of `fillMigrationContents`: the loop over the text of the
opened file, the two validations, and the contents that are stored. -/
def parseContents (version : Nat) (text : List Char) : Except Fatal migrationContents :=
  match fillLoop version fillState.init (scanLines text) with
  | .error e => .error e
  | .ok st =>
    if !st.foundUp then .error (.missingUp version)
    else if !st.foundDown then .error (.missingDown version)
    else .ok ⟨st.upContents, st.downContents⟩

/-! ## File system -/

/-- One call of the `fs.WalkDir` callback. -/
structure DirEntry where
  path : List Char
  isDir : Bool
deriving DecidableEq, Repr

/-- What the engine sees of the file system: the entries `fs.WalkDir` visits
from the root (`none`: the walk reports an error), and the text `os.Open`
gives for a path (`none`: the file cannot be opened). -/
structure FileSystem where
  walk : Option (List DirEntry)
  readFile : List Char → Option (List Char)

/-- The function `fillMigrationContents`: on success the migration's
`contents` pointer is set. -/
def fillMigrationContents (fs : FileSystem) (migration : migrationFileInfo) :
    Except Fatal migrationFileInfo :=
  match fs.readFile migration.file with
  | none => .error .openFile
  | some text =>
    match parseContents migration.version text with
    | .error e => .error e
    | .ok c => .ok { migration with contents := some c }

/-! ## Migration source scanner (`ListAvailableMigrationsCh`) -/

/-- Decimal digits read from the left, `acc` being the value so far. -/
def parseDigits : Nat → List Char → Option Nat
  | acc, [] => some acc
  | acc, c :: t => if isDigit c then parseDigits (acc * 10 + (c.toNat - 48)) t else none

/-- The call `strconv.Atoi` on a string of decimal digits, which is all the
capture group `(\d{4})` can hold: the value of the digits, an error (`none`)
for an empty string, for any other character and for a value outside the
range of a 64-bit `int`. -/
def Atoi (s : List Char) : Option Nat :=
  if s.isEmpty then none
  else match parseDigits 0 s with
    | none => none
    | some n => if n < 2 ^ 63 then some n else none

/-- The paths collected by the walk callback: entries that are not
directories and whose path the pattern matches. -/
def migrationFiles (entries : List DirEntry) : List (List Char) :=
  (entries.filter fun d => !d.isDir && (FindStringSubmatch d.path).isSome).map (·.path)

/-- The loop that fills `sortedVersions` and `migrationMap` (a Go map, kept
as an association list). -/
def collectVersions :
    List (List Char) → List Nat × List (Nat × migrationFileInfo) →
    Except Fatal (List Nat × List (Nat × migrationFileInfo))
  | [], acc => .ok acc
  | file :: rest, (sortedVersions, migrationMap) =>
    match FindStringSubmatch file with
    | none => .error .nilMatch
    | some digits =>
      match Atoi digits with
      | none => .error .parseVersion
      | some version =>
        if (migrationMap.lookup version).isSome then .error (.duplicateVersion version)
        else collectVersions rest
          (sortedVersions ++ [version], (version, ⟨version, file, none⟩) :: migrationMap)

/-- The index expression `migrationMap[version]`; a missing key gives the zero value. -/
def mapIndex (migrationMap : List (Nat × migrationFileInfo)) (version : Nat) : migrationFileInfo :=
  (migrationMap.lookup version).getD ⟨0, [], none⟩

/-- The function `ListAvailableMigrationsCh`, as the value sent on its
channel. The directory argument is not used by the source: the walk starts at
the root of the file system. `sort.Ints` is an ascending sort. -/
def ListAvailableMigrations (fs : FileSystem) : Except Fatal (List migrationFileInfo) :=
  match fs.walk with
  | none => .error .readDir
  | some entries =>
    match collectVersions (migrationFiles entries) ([], []) with
    | .error e => .error e
    | .ok (sortedVersions, migrationMap) =>
      .ok ((sortedVersions.insertionSort (· ≤ ·)).map (mapIndex migrationMap))

/-! ## Database handle -/

/-- The statements the engine sends through `*sql.DB` and `*sql.Tx`. -/
inductive Stmt where
  /-- `SELECT EXISTS (... table_name = 'migrations')` -/
  | checkTable
  /-- `CREATE TABLE migrations (...)` -/
  | createTable
  /-- `SELECT version FROM migrations ORDER BY version DESC LIMIT 1` -/
  | selectVersion
  /-- `db.Begin()` -/
  | begin
  /-- `tx.Exec(sql)` with the SQL text of a migration file -/
  | exec (sql : List Char)
  /-- `INSERT INTO migrations (version, installed_at) VALUES ($1, $2)` -/
  | insert (version : Nat) (installedAt : Nat)
  /-- `DELETE FROM migrations WHERE version = $1` -/
  | delete (version : Nat)
  /-- `tx.Commit()` -/
  | commit
  /-- `tx.Rollback()` -/
  | rollback
deriving DecidableEq, Repr

/-- State of the database: `schema` is everything the SQL of migration files
acts on, `migrations` is the bookkeeping table (`none` while the table does
not exist), `trace` lists the statements sent so far, oldest first (it is a
record kept for the proofs, not part of what the database stores). -/
structure Database (σ : Type) where
  schema : σ
  migrations : Option (List MigrationsTable)
  trace : List Stmt
deriving DecidableEq, Repr

/-- The environment behind the handle: what the text of a migration does to
the schema (`none`: the statement fails), what a text that fails has already
done to the schema inside its transaction when the error is reported
(`residue`: the part of a multi-statement text that ran before the failing
statement), which statements fail for a reason of their own (connection loss,
constraint, ...), and the clock read by `time.Now()`. -/
structure Driver (σ : Type) where
  run : List Char → σ → Option σ
  residue : List Char → σ → σ
  fails : Stmt → Database σ → Bool
  now : Database σ → Nat

/-- Records that a statement was sent. -/
def Database.sent {σ : Type} (db : Database σ) (s : Stmt) : Database σ :=
  { db with trace := db.trace ++ [s] }

/-- End of a transaction that is not committed: the stored state is the one
saved at `Begin`; the trace keeps what was sent inside the transaction. -/
def Database.discard {σ : Type} (saved tx : Database σ) : Database σ :=
  { saved with trace := tx.trace }

/-- The result of `SELECT version ... ORDER BY version DESC LIMIT 1` on the
rows of the table: the greatest version, `none` for `sql.ErrNoRows`. -/
def selectInstalledVersion : List MigrationsTable → Option Nat
  | [] => none
  | r :: rs =>
    match selectInstalledVersion rs with
    | none => some r.Version
    | some m => some (max r.Version m)

/-- The function `EnsureMigrationTableExistsCh`. -/
def EnsureMigrationTableExists {σ : Type} (D : Driver σ) (db : Database σ) :
    Except Fatal Unit × Database σ :=
  let db1 := db.sent .checkTable
  if D.fails .checkTable db then (.error .checkTable, db1)
  else if db.migrations.isNone then
    let db2 := db1.sent .createTable
    if D.fails .createTable db1 then (.error .createTable, db2)
    else (.ok (), { db2 with migrations := some [] })
  else (.ok (), db1)

/-- The function `getInstalledMigrationVersionCh`. -/
def getInstalledMigrationVersion {σ : Type} (D : Driver σ) (db : Database σ) :
    Except Fatal Nat × Database σ :=
  match EnsureMigrationTableExists D db with
  | (.error e, db1) => (.error e, db1)
  | (.ok _, db1) =>
    let db2 := db1.sent .selectVersion
    if D.fails .selectVersion db1 then (.error .getVersion, db2)
    else match db1.migrations with
      | none => (.error .getVersion, db2)
      | some rows =>
        match selectInstalledVersion rows with
        | none => (.ok 0, db2)
        | some version => (.ok version, db2)

/-! ## State reconciler (`GetLiveMigrationInfoCh`) -/

/-- The function `GetLiveMigrationInfoCh`: the installed-version task is
started first, then the scanner; both are awaited. -/
def GetLiveMigrationInfo {σ : Type} (D : Driver σ) (fs : FileSystem) (db : Database σ) :
    Except Fatal MigrationState × Database σ :=
  match getInstalledMigrationVersion D db with
  | (.error e, db1) => (.error e, db1)
  | (.ok installedMigration, db1) =>
    match ListAvailableMigrations fs with
    | .error e => (.error e, db1)
    | .ok allMigrations =>
      match allMigrations.getLast? with
      | none => (.ok ⟨0, installedMigration, []⟩, db1)
      | some highestAvailableMigration =>
        (.ok ⟨highestAvailableMigration.version, installedMigration, allMigrations⟩, db1)

/-! ## Transactional applier (`MigrateUpCh`, `MigrateDownCh`) -/

/-- The content-loading tasks of `MigrateUpCh` (lines 70 to 79), joined
before the apply phase: any task that ends in `log.Fatalf` ends the process. -/
def fillAll (fs : FileSystem) : List migrationFileInfo → Except Fatal (List migrationFileInfo)
  | [] => .ok []
  | m :: rest =>
    match fillMigrationContents fs m with
    | .error e => .error e
    | .ok m1 =>
      match fillAll fs rest with
      | .error e => .error e
      | .ok rest1 => .ok (m1 :: rest1)

/-- The body of the loop at lines 82 to 111: one migration, one transaction. -/
def applyMigrationUp {σ : Type} (D : Driver σ) (migration : migrationFileInfo)
    (db : Database σ) : Except Fatal Unit × Database σ :=
  let tx0 := db.sent .begin
  if D.fails .begin db then (.error .beginTx, tx0)
  else match migration.contents with
    | none => (.error .nilContents, tx0)
    | some c =>
      let tx1 := tx0.sent (.exec c.up)
      match (if D.fails (.exec c.up) tx0 then none else D.run c.up tx0.schema) with
      | none =>
        let tx1 := { tx1 with schema := D.residue c.up tx0.schema }
        (.error (.applyExec migration.version), db.discard (tx1.sent .rollback))
      | some schema1 =>
        let tx1 := { tx1 with schema := schema1 }
        let now := D.now tx1
        let tx2 := tx1.sent (.insert migration.version now)
        match (if D.fails (.insert migration.version now) tx1 then none else tx1.migrations) with
        | none => (.error (.insertVersion migration.version), db.discard (tx2.sent .rollback))
        | some rows =>
          let tx2 := { tx2 with migrations := some (rows ++ [⟨migration.version, now⟩]) }
          let tx3 := tx2.sent .commit
          if D.fails .commit tx2 then (.error (.commitTx migration.version), db.discard tx3)
          else (.ok (), tx3)

/-- The loop `for _, migration := range migrationsToApply` at lines 82 to 111. -/
def applyAllUp {σ : Type} (D : Driver σ) :
    List migrationFileInfo → Database σ → Except Fatal Unit × Database σ
  | [], db => (.ok (), db)
  | migration :: rest, db =>
    match applyMigrationUp D migration db with
    | (.error e, db1) => (.error e, db1)
    | (.ok _, db1) => applyAllUp D rest db1

/-- The filter at lines 62 to 68. -/
def migrationsToApply (migrationState : MigrationState) : List migrationFileInfo :=
  migrationState.Migrations.filter fun migration =>
    decide (migration.version > migrationState.InstalledVersion)

/-- Lines 47 to 113 of `MigrateUpCh`: what is done with the migration state.
The boolean is the value the caller receives from the returned channel:
`true` is sent when already up to date; after a migration the channel is
closed without a send, so the caller receives `false`. -/
def migrateUpFrom {σ : Type} (D : Driver σ) (fs : FileSystem) (migrationState : MigrationState)
    (db : Database σ) : Except Fatal Bool × Database σ :=
  if migrationState.InstalledVersion = migrationState.AvailableVersion then (.ok true, db)
  else if migrationState.InstalledVersion > migrationState.AvailableVersion then
    (.error (.installedAhead migrationState.InstalledVersion migrationState.AvailableVersion), db)
  else
    match fillAll fs (migrationsToApply migrationState) with
    | .error e => (.error e, db)
    | .ok filled =>
      match applyAllUp D filled db with
      | (.error e, db1) => (.error e, db1)
      | (.ok _, db1) => (.ok false, db1)

/-- The function `MigrateUpCh`. -/
def MigrateUp {σ : Type} (D : Driver σ) (fs : FileSystem) (db : Database σ) :
    Except Fatal Bool × Database σ :=
  match GetLiveMigrationInfo D fs db with
  | (.error e, db1) => (.error e, db1)
  | (.ok migrationState, db1) => migrateUpFrom D fs migrationState db1

/-- Lines 155 to 180 of `MigrateDownCh`: the transaction that reverts one migration. -/
def applyMigrationDown {σ : Type} (D : Driver σ) (migration : migrationFileInfo)
    (db : Database σ) : Except Fatal Unit × Database σ :=
  let tx0 := db.sent .begin
  if D.fails .begin db then (.error .beginTx, tx0)
  else match migration.contents with
    | none => (.error .nilContents, tx0)
    | some c =>
      let tx1 := tx0.sent (.exec c.down)
      match (if D.fails (.exec c.down) tx0 then none else D.run c.down tx0.schema) with
      | none =>
        let tx1 := { tx1 with schema := D.residue c.down tx0.schema }
        (.error (.applyExec migration.version), db.discard (tx1.sent .rollback))
      | some schema1 =>
        let tx1 := { tx1 with schema := schema1 }
        let tx2 := tx1.sent (.delete migration.version)
        match (if D.fails (.delete migration.version) tx1 then none else tx1.migrations) with
        | none => (.error (.removeVersion migration.version), db.discard (tx2.sent .rollback))
        | some rows =>
          let tx2 := { tx2 with
            migrations := some (rows.filter fun r => decide (r.Version ≠ migration.version)) }
          let tx3 := tx2.sent .commit
          if D.fails .commit tx2 then (.error (.commitTx migration.version), db.discard tx3)
          else (.ok (), tx3)

/-- Lines 125 to 181 of `MigrateDownCh`: what is done with the migration
state. The returned channel is closed without a send. -/
def migrateDownFrom {σ : Type} (D : Driver σ) (fs : FileSystem) (liveState : MigrationState)
    (db : Database σ) : Except Fatal Bool × Database σ :=
  if liveState.InstalledVersion = 0 then (.error .nothingToRevert, db)
  else
    match liveState.Migrations.find? fun m => decide (m.version = liveState.InstalledVersion) with
    | none => (.error (.installedNotFound liveState.InstalledVersion), db)
    | some migration =>
      match fillMigrationContents fs migration with
      | .error e => (.error e, db)
      | .ok filled =>
        match applyMigrationDown D filled db with
        | (.error e, db1) => (.error e, db1)
        | (.ok _, db1) => (.ok false, db1)

/-- The function `MigrateDownCh`. -/
def MigrateDown {σ : Type} (D : Driver σ) (fs : FileSystem) (db : Database σ) :
    Except Fatal Bool × Database σ :=
  match GetLiveMigrationInfo D fs db with
  | (.error e, db1) => (.error e, db1)
  | (.ok liveState, db1) => migrateDownFrom D fs liveState db1

/-! ## Notions used to state the properties -/

/-- The version the scanner reads from a path: the capture group through `Atoi`. -/
def versionOf (file : List Char) : Option Nat := (FindStringSubmatch file).bind Atoi

/-- The version read from a path, `0` when there is none. -/
def ver (file : List Char) : Nat := (versionOf file).getD 0

/-- The record the scanner stores for a path. -/
def recOf (file : List Char) : migrationFileInfo := ⟨ver file, file, none⟩

/-- The candidate migrations of a walk: one record per collected path. -/
def candidates (entries : List DirEntry) : List migrationFileInfo :=
  (migrationFiles entries).map recOf

/-- Value of a decimal digit character. -/
def digitValue (c : Char) : Nat := c.toNat - 48

/-- The shape of a path the pattern accepts: somewhere in the path, a
character other than a newline, then a separator (slash, vertical bar or
backslash), then the four digits `d1 d2 d3 d4` directly followed by `_`, then
a non-empty name without white space, then `.sql`; anything may come before
and after. -/
def FourDigitShape (path : List Char) (d1 d2 d3 d4 : Char) : Prop :=
  ∃ (pre : List Char) (c s : Char) (name rest : List Char),
    path = pre ++ c :: s :: d1 :: d2 :: d3 :: d4 :: '_' :: (name ++ '.' :: 's' :: 'q' :: 'l' :: rest) ∧
    c ≠ '\n' ∧ isSep s = true ∧
    isDigit d1 = true ∧ isDigit d2 = true ∧ isDigit d3 = true ∧ isDigit d4 = true ∧
    name ≠ [] ∧ ∀ x ∈ name, isSpace x = false

/-- The four-digit shape at a given place of the path: `pre` is the part of
the path before the character that precedes the separator. -/
def FourDigitShapeAt (pre path : List Char) (d1 d2 d3 d4 : Char) : Prop :=
  ∃ (c s : Char) (name rest : List Char),
    path = pre ++ c :: s :: d1 :: d2 :: d3 :: d4 :: '_' :: (name ++ '.' :: 's' :: 'q' :: 'l' :: rest) ∧
    c ≠ '\n' ∧ isSep s = true ∧
    isDigit d1 = true ∧ isDigit d2 = true ∧ isDigit d3 = true ∧ isDigit d4 = true ∧
    name ≠ [] ∧ ∀ x ∈ name, isSpace x = false

/-- A text from its lines: each line followed by a newline. -/
def unlines : List (List Char) → List Char
  | [] => []
  | l :: ls => l ++ '\n' :: unlines ls

/-- All the lines of a text, as `bufio.ScanLines` cuts them (whether or not
they fit the scanner's buffer). -/
def textLines (text : List Char) : List (List Char) := (rawLines text).map dropCR

/-- The loop treats a line as the backward marker when the backward pattern
matches and the forward pattern does not (the forward test comes first). -/
def isDownLine (line : List Char) : Bool := !upRx line && downRx line

/-- A line is ordinary content when neither marker pattern matches it. -/
def isContentLine (line : List Char) : Bool := !upRx line && !downRx line

/-- The lines of a section: those strictly after the first line that
satisfies `isMarker` and before the next marker line or the end. -/
def sectionAfter (isMarker : List Char → Bool) (lines : List (List Char)) : List (List Char) :=
  ((lines.dropWhile fun l => !isMarker l).drop 1).takeWhile isContentLine

/-- The lines before the first marker line. -/
def leadLines (lines : List (List Char)) : List (List Char) := lines.takeWhile isContentLine

/-- A line that the scanner returns as it stands in the text: no newline in
it, no carriage return at its end, shorter than the scanner's buffer. -/
def plainLine (l : List Char) : Bool :=
  l.all (fun c => c != '\n') && decide (l.getLast? ≠ some '\r') && fitsBuffer l

/-- What a run of content lines does to the state of the loop: the lines,
each followed by a newline, are appended to the section being captured. -/
def absorb (st : fillState) (lines : List (List Char)) : fillState :=
  if st.capturingSection = 1 then { st with upContents := st.upContents ++ unlines lines }
  else if st.capturingSection = 2 then
    { st with downContents := st.downContents ++ unlines lines }
  else st

/-- The line holds, at any place, `--`, then white space (possibly none), then
`+word` in any letter case; anything may come before and after. -/
def MarkerShape (word line : List Char) : Prop :=
  ∃ (pre ws lit rest : List Char), line = pre ++ '-' :: '-' :: (ws ++ (lit ++ rest)) ∧
    (∀ x ∈ ws, isSpace x = true) ∧ lit.map Char.toLower = '+' :: word

/-- Follows the spec's words, for comparison with `upRx` and `downRx`: the
marker `-- +word`, the word in any letter case, starts the line (inline text
may follow). -/
def specMarkerLine (word : List Char) : List Char → Bool
  | a :: b :: c :: t => a == '-' && b == '-' && c == ' ' && foldLitAt ('+' :: word) t
  | _ => false

/-- Follows the spec's words, for comparison with `scanLines`: the lines of a
text, each with its line break as it stands in the text. -/
def specLinesWithBreaks : List Char → List (List Char)
  | [] => []
  | c :: t =>
    if c == '\n' then [c] :: specLinesWithBreaks t
    else match specLinesWithBreaks t with
      | [] => [[c]]
      | l :: ls => (c :: l) :: ls

/-- The content of a line that carries its line break: the line without a
final newline and without a carriage return before it. -/
def chomp (l : List Char) : List Char :=
  dropCR (if l.getLast? = some '\n' then l.dropLast else l)

/-- Follows the spec's words, for comparison with the parser's result: the
text of the lines strictly after the first line that satisfies `isMarker` and
before the next marker line or the end of the file, with their line breaks
unmodified. -/
def specSectionText (isMarker : List Char → Bool) (text : List Char) : List Char :=
  ((((specLinesWithBreaks text).dropWhile fun l => !isMarker (chomp l)).drop 1).takeWhile
    fun l => isContentLine (chomp l)).foldr (· ++ ·) []

/-- The up-SQL of a migration (empty while the contents are not loaded). -/
def upSql (m : migrationFileInfo) : List Char := (m.contents.map (·.up)).getD []

/-- The down-SQL of a migration (empty while the contents are not loaded). -/
def downSql (m : migrationFileInfo) : List Char := (m.contents.map (·.down)).getD []

/-- The statements of one committed up transaction, `t` being the timestamp
of the bookkeeping row. -/
def upTx (m : migrationFileInfo) (t : Nat) : List Stmt :=
  [.begin, .exec (upSql m), .insert m.version t, .commit]

/-- The statements of a batch of committed up transactions. -/
def upTrace : List migrationFileInfo → List Nat → List Stmt
  | m :: ms, t :: ts => upTx m t ++ upTrace ms ts
  | _, _ => []

/-- The bookkeeping rows written by a batch of committed up transactions. -/
def upRows : List migrationFileInfo → List Nat → List MigrationsTable
  | m :: ms, t :: ts => ⟨m.version, t⟩ :: upRows ms ts
  | _, _ => []

/-- The schema after a sequence of SQL texts has run, each on the result of
the one before; `none` when one of them fails. -/
def runAll {σ : Type} (D : Driver σ) : List (List Char) → σ → Option σ
  | [], s => some s
  | q :: qs, s =>
    match D.run q s with
    | none => none
    | some s1 => runAll D qs s1

/-- The record `f` is the record `m` with the contents parsed from its file. -/
def LoadedFrom (fs : FileSystem) (m f : migrationFileInfo) : Prop :=
  ∃ text c, fs.readFile m.file = some text ∧ parseContents m.version text = .ok c ∧
    f = { m with contents := some c }

/-- The statements of the reconciliation step: the existence check, the
creation of the bookkeeping table, the read of the installed version. -/
def Stmt.isReconcile : Stmt → Bool
  | .checkTable => true
  | .createTable => true
  | .selectVersion => true
  | _ => false

/-- The statements that only read: the existence check and the read of the
installed version. -/
def Stmt.isRead : Stmt → Bool
  | .checkTable => true
  | .selectVersion => true
  | _ => false

/-- The installed version of a database as the reader reports it: the
greatest recorded version, `0` without a table or without rows. -/
def installedVersion {σ : Type} (db : Database σ) : Nat :=
  (selectInstalledVersion (db.migrations.getD [])).getD 0

/-- The facts the reconciler establishes about the state it returns, `db`
being the database before the call and `db1` after it. -/
structure Reconciled {σ : Type} (db db1 : Database σ) (st : MigrationState) : Prop where
  sorted : (st.Migrations.map (·.version)).Sorted (· < ·)
  le_available : ∀ m ∈ st.Migrations, m.version ≤ st.AvailableVersion
  available_mem : 0 < st.AvailableVersion → ∃ m ∈ st.Migrations, m.version = st.AvailableVersion
  installed : st.InstalledVersion = installedVersion db
  rows : db1.migrations = some (db.migrations.getD [])
  schema : db1.schema = db.schema

/-! ## Example data -/

/-- A schema that is the list of the SQL texts applied to it. -/
abbrev SqlLog : Type := List (List Char)

/-- A driver on which every statement succeeds; the clock is the number of
statements sent so far. -/
def okDriver : Driver SqlLog :=
  ⟨fun sql s => some (s ++ [sql]), fun _ s => s, fun _ _ => false, fun db => db.trace.length⟩

/-- A file system given by its files: the walk visits the directory
`migrations` and then the files in the order of the list. -/
def fileSystemOf (files : List (List Char × List Char)) : FileSystem :=
  ⟨some (⟨"migrations".toList, true⟩ :: files.map fun p => ⟨p.1, false⟩), fun path => files.lookup path⟩

/-- Three well-formed migration files. -/
def threeFiles : List (List Char × List Char) :=
  [("migrations/0001_init.sql".toList, "-- +up\nU1;\n-- +down\nD1;\n".toList),
   ("migrations/0002_add_col.sql".toList, "-- +up\nU2;\n-- +down\nD2;\n".toList),
   ("migrations/0003_index.sql".toList, "-- +up\nU3;\n-- +down\nD3;\n".toList)]

/-- A database without a bookkeeping table. -/
def freshDb : Database SqlLog := ⟨[], none, []⟩

/-- The migration state the reconciler reports for `threeFiles` on a database
whose installed version is `installed`. -/
def threeState (installed : Nat) : MigrationState :=
  ⟨3, installed,
    [⟨1, "migrations/0001_init.sql".toList, none⟩,
     ⟨2, "migrations/0002_add_col.sql".toList, none⟩,
     ⟨3, "migrations/0003_index.sql".toList, none⟩]⟩

/-- The database `freshDb` after the reconciliation step. -/
def freshDbReconciled : Database SqlLog :=
  ⟨[], some [], [.checkTable, .createTable, .selectVersion]⟩

/-- The database `freshDb` after `MigrateUp` with `threeFiles` on `okDriver`. -/
def threeApplied : Database SqlLog :=
  ⟨["U1;\n".toList, "U2;\n".toList, "U3;\n".toList],
   some [⟨1, 5⟩, ⟨2, 9⟩, ⟨3, 13⟩],
   [.checkTable, .createTable, .selectVersion,
    .begin, .exec "U1;\n".toList, .insert 1 5, .commit,
    .begin, .exec "U2;\n".toList, .insert 2 9, .commit,
    .begin, .exec "U3;\n".toList, .insert 3 13, .commit]⟩

/-- A database whose bookkeeping table records version 5 only. -/
def aheadDb : Database SqlLog := ⟨[], some [⟨5, 0⟩], []⟩

/-- A database with an empty bookkeeping table. -/
def emptyTableDb : Database SqlLog := ⟨[], some [], []⟩

/-- One well-formed migration file, of version 100. -/
def fileHundred : List (List Char × List Char) :=
  [("migrations/0100_test.sql".toList, "-- +up\nU100;\n-- +down\nD100;\n".toList)]

/-- The three files as a walk visits them in the order 3, 1, 2. -/
def shuffledWalk : List DirEntry :=
  [⟨"migrations/0003_index.sql".toList, false⟩, ⟨"migrations".toList, true⟩,
   ⟨"migrations/0001_init.sql".toList, false⟩, ⟨"migrations/0002_add_col.sql".toList, false⟩]

/-- A migration text with an up section, a down section, then a line of
65536 characters, then a second forward marker. -/
def longLineText : List Char :=
  unlines ["-- +up".toList, "U;".toList, "-- +down".toList, "D;".toList,
    List.replicate 65536 'x', "-- +up".toList, "V;".toList]

/-- A well-formed migration text whose lines end in carriage return and newline. -/
def crlfText : List Char := "-- +up\r\nA;\r\n-- +down\r\nB;\r\n".toList

/-- A migration text in which a statement of the up section is followed, on
its line, by the text of the forward marker. -/
def trailingMarkerText : List Char := "-- +up\nSELECT 1; -- +up\n-- +down\nD;\n".toList

/-- A migration text whose two markers come after other content on their lines. -/
def inlineMarkersText : List Char := "SELECT 1; -- +up\nA;\nSELECT 2; -- +down\nB;\n".toList

/-- A migration text with a line before the first marker, the down section
first, inline text after the forward marker, one line ending in carriage
return and newline, and no line break after the last line. -/
def mixedText : List Char := "note\n-- +down\nB;\n-- +up now\nA1;\r\nA2;".toList

/-! ## The path pattern -/

theorem nameSqlAt_append (name rest : List Char) (hne : name ≠ [])
    (hns : ∀ x ∈ name, isSpace x = false) :
    nameSqlAt (name ++ ('.' :: 's' :: 'q' :: 'l' :: rest)) = true := by
  induction name with
  | nil => exact absurd rfl hne
  | cons c t ih =>
    have hc : isSpace c = false := hns c (by simp)
    cases t with
    | nil => simp [nameSqlAt, sqlAt, hc]
    | cons c2 t2 =>
      have := ih (by simp) (fun x hx => hns x (by simp [hx]))
      rw [List.cons_append, nameSqlAt, this]
      simp [hc]

theorem nameSqlAt_split (l : List Char) (h : nameSqlAt l = true) :
    ∃ name rest, l = name ++ ('.' :: 's' :: 'q' :: 'l' :: rest) ∧ name ≠ [] ∧
      ∀ x ∈ name, isSpace x = false := by
  induction l with
  | nil => simp [nameSqlAt] at h
  | cons c t ih =>
    simp only [nameSqlAt, Bool.and_eq_true, Bool.not_eq_true', Bool.or_eq_true] at h
    obtain ⟨hc, h | h⟩ := h
    · obtain ⟨name, rest, ht, -, hns⟩ := ih h
      refine ⟨c :: name, rest, by simp [ht], by simp, ?_⟩
      intro x hx
      rcases List.mem_cons.1 hx with rfl | hx
      · exact hc
      · exact hns x hx
    · obtain ⟨rest, hr⟩ := List.isPrefixOf_iff_prefix.1 h
      exact ⟨[c], rest, by simp [← hr], by simp, by simpa using hc⟩

theorem sepVersionAt_some (l g : List Char) (h : sepVersionAt l = some g) :
    ∃ s d1 d2 d3 d4 t, l = s :: d1 :: d2 :: d3 :: d4 :: '_' :: t ∧ g = [d1, d2, d3, d4] ∧
      isSep s = true ∧ isDigit d1 = true ∧ isDigit d2 = true ∧ isDigit d3 = true ∧
      isDigit d4 = true ∧ nameSqlAt t = true := by
  match l, h with
  | s :: d1 :: d2 :: d3 :: d4 :: u :: t, h =>
    simp only [sepVersionAt] at h
    split at h
    · rename_i hc
      simp only [Bool.and_eq_true, beq_iff_eq] at hc
      obtain ⟨⟨⟨⟨⟨⟨h1, h2⟩, h3⟩, h4⟩, h5⟩, h6⟩, h7⟩ := hc
      subst h6
      exact ⟨s, d1, d2, d3, d4, t, rfl, by simpa using h.symm, h1, h2, h3, h4, h5, h7⟩
    · simp at h

theorem sepVersionAt_of (s d1 d2 d3 d4 : Char) (t : List Char) (hs : isSep s = true)
    (h1 : isDigit d1 = true) (h2 : isDigit d2 = true) (h3 : isDigit d3 = true)
    (h4 : isDigit d4 = true) (ht : nameSqlAt t = true) :
    sepVersionAt (s :: d1 :: d2 :: d3 :: d4 :: '_' :: t) = some [d1, d2, d3, d4] := by
  simp [sepVersionAt, hs, h1, h2, h3, h4, ht]

theorem migrationRxAt_some (l g : List Char) (h : migrationRxAt l = some g) :
    ∃ pre c rest, l = pre ++ c :: rest ∧ c ≠ '\n' ∧ sepVersionAt rest = some g := by
  induction l with
  | nil => simp [migrationRxAt] at h
  | cons c t ih =>
    simp only [migrationRxAt] at h
    split at h
    · simp at h
    · rename_i hc
      split at h
      · rename_i g2 hg
        obtain ⟨pre, c2, rest, ht, hc2, hr⟩ := ih (by rw [hg, h])
        exact ⟨c :: pre, c2, rest, by simp [ht], hc2, hr⟩
      · exact ⟨[], c, t, rfl, by simpa using hc, h⟩

theorem FindStringSubmatch_some (l g : List Char) (h : FindStringSubmatch l = some g) :
    ∃ pre c rest, l = pre ++ c :: rest ∧ c ≠ '\n' ∧ sepVersionAt rest = some g := by
  induction l with
  | nil => simp [FindStringSubmatch] at h
  | cons c t ih =>
    simp only [FindStringSubmatch] at h
    split at h
    · rename_i g2 hg
      exact migrationRxAt_some _ _ (by rw [hg, h])
    · obtain ⟨pre, c2, rest, ht, hc2, hr⟩ := ih h
      exact ⟨c :: pre, c2, rest, by simp [ht], hc2, hr⟩

theorem migrationRxAt_isSome_of (c : Char) (rest : List Char) (hc : c ≠ '\n')
    (h : (sepVersionAt rest).isSome = true) : (migrationRxAt (c :: rest)).isSome = true := by
  simp only [migrationRxAt]
  rw [if_neg (by simpa using hc)]
  split
  · rfl
  · exact h

theorem FindStringSubmatch_isSome_of (pre : List Char) (c : Char) (rest : List Char)
    (hc : c ≠ '\n') (h : (sepVersionAt rest).isSome = true) :
    (FindStringSubmatch (pre ++ c :: rest)).isSome = true := by
  induction pre with
  | nil =>
    have := migrationRxAt_isSome_of c rest hc h
    simp only [List.nil_append, FindStringSubmatch]
    split
    · rfl
    · rename_i hn; rw [hn] at this; simp at this
  | cons p pre ih =>
    simp only [List.cons_append, FindStringSubmatch]
    split
    · rfl
    · exact ih

theorem isDigit_bound (c : Char) (h : isDigit c = true) : 48 ≤ c.toNat ∧ c.toNat ≤ 57 := by
  simp only [isDigit, Bool.and_eq_true, decide_eq_true_eq] at h
  obtain ⟨h1, h2⟩ := h
  exact ⟨h1, h2⟩

/-- Integer value of four decimal digits. -/
theorem Atoi_four_digits (d1 d2 d3 d4 : Char) (h1 : isDigit d1 = true) (h2 : isDigit d2 = true)
    (h3 : isDigit d3 = true) (h4 : isDigit d4 = true) :
    Atoi [d1, d2, d3, d4] =
      some (1000 * digitValue d1 + 100 * digitValue d2 + 10 * digitValue d3 + digitValue d4) := by
  have b1 := isDigit_bound d1 h1
  have b2 := isDigit_bound d2 h2
  have b3 := isDigit_bound d3 h3
  have b4 := isDigit_bound d4 h4
  have hlt : ((((0 * 10 + (d1.toNat - 48)) * 10 + (d2.toNat - 48)) * 10 + (d3.toNat - 48)) * 10
      + (d4.toNat - 48)) < 2 ^ 63 := by omega
  simp only [Atoi, parseDigits, h1, h2, h3, h4, List.isEmpty_cons, if_true, hlt,
    Bool.false_eq_true, if_false, digitValue]
  congr 1
  omega

/-! ## The scanner -/

theorem versionOf_isSome_of_match (file : List Char)
    (h : (FindStringSubmatch file).isSome = true) : (versionOf file).isSome = true := by
  obtain ⟨g, hg⟩ := Option.isSome_iff_exists.1 h
  obtain ⟨pre, c, rest, -, -, hr⟩ := FindStringSubmatch_some file g hg
  obtain ⟨s, d1, d2, d3, d4, t, -, rfl, -, h1, h2, h3, h4, -⟩ := sepVersionAt_some rest g hr
  simp [versionOf, hg, Atoi_four_digits d1 d2 d3 d4 h1 h2 h3 h4]

theorem migrationFiles_match (entries : List DirEntry) :
    ∀ file ∈ migrationFiles entries, (versionOf file).isSome = true := by
  intro file hf
  simp only [migrationFiles, List.mem_map, List.mem_filter, Bool.and_eq_true] at hf
  obtain ⟨d, ⟨-, -, hm⟩, rfl⟩ := hf
  exact versionOf_isSome_of_match _ hm

theorem candidates_eq (entries : List DirEntry) :
    candidates entries = (migrationFiles entries).map recOf := rfl

theorem candidates_versions (entries : List DirEntry) :
    (candidates entries).map (·.version) = (migrationFiles entries).map ver := by
  simp [candidates_eq, recOf, Function.comp_def]

theorem collectVersions_spec (files : List (List Char)) :
    ∀ (vs : List Nat) (mp : List (Nat × migrationFileInfo)),
      (∀ f ∈ files, (versionOf f).isSome = true) →
      (∀ v, (mp.lookup v).isSome = true ↔ v ∈ vs) →
      (((files.map ver).Nodup ∧ ∀ f ∈ files, ver f ∉ vs) →
        collectVersions files (vs, mp) =
          .ok (vs ++ files.map ver, (files.map fun f => (ver f, recOf f)).reverse ++ mp)) ∧
      (¬ ((files.map ver).Nodup ∧ ∀ f ∈ files, ver f ∉ vs) →
        ∃ v, collectVersions files (vs, mp) = .error (.duplicateVersion v)) := by
  induction files with
  | nil =>
    intro vs mp _ _
    constructor
    · intro _; simp [collectVersions]
    · intro h; exact absurd ⟨by simp, by simp⟩ h
  | cons f rest ih =>
    intro vs mp hsome hkeys
    have hf : (versionOf f).isSome = true := hsome f (by simp)
    obtain ⟨v, hv⟩ := Option.isSome_iff_exists.1 hf
    have hverf : ver f = v := by simp [ver, hv]
    obtain ⟨g, hg, hat⟩ : ∃ g, FindStringSubmatch f = some g ∧ Atoi g = some v := by
      simp only [versionOf] at hv
      cases hfs : FindStringSubmatch f with
      | none => rw [hfs] at hv; simp at hv
      | some g => rw [hfs] at hv; exact ⟨g, rfl, by simpa using hv⟩
    by_cases hin : v ∈ vs
    · have hl : (mp.lookup v).isSome = true := (hkeys v).2 hin
      constructor
      · rintro ⟨-, h2⟩
        exact absurd (hverf ▸ hin) (h2 f (by simp))
      · intro _
        exact ⟨v, by simp [collectVersions, hg, hat, hl]⟩
    · have hl : (mp.lookup v).isSome = false := by
        cases h : (mp.lookup v).isSome
        · rfl
        · exact absurd ((hkeys v).1 h) hin
      have hkeys2 : ∀ w, (((v, (⟨v, f, none⟩ : migrationFileInfo)) :: mp).lookup w).isSome = true ↔
          w ∈ vs ++ [v] := by
        intro w
        rw [List.lookup_cons]
        by_cases hw : w = v
        · subst hw; simp
        · have : (w == v) = false := beq_false_of_ne hw
          rw [this]
          simp [hkeys w, hw]
      obtain ⟨ih1, ih2⟩ := ih (vs ++ [v]) ((v, ⟨v, f, none⟩) :: mp)
        (fun x hx => hsome x (by simp [hx])) hkeys2
      have hstep : collectVersions (f :: rest) (vs, mp) =
          collectVersions rest (vs ++ [v], (v, ⟨v, f, none⟩) :: mp) := by
        simp [collectVersions, hg, hat, hl]
      have hcond : ((List.map ver (f :: rest)).Nodup ∧ ∀ x ∈ f :: rest, ver x ∉ vs) ↔
          ((List.map ver rest).Nodup ∧ ∀ x ∈ rest, ver x ∉ vs ++ [v]) := by
        rw [List.map_cons, List.nodup_cons, hverf]
        constructor
        · rintro ⟨⟨h1, h2⟩, h3⟩
          refine ⟨h2, fun x hx hmem => ?_⟩
          rcases List.mem_append.1 hmem with h | h
          · exact h3 x (List.mem_cons_of_mem _ hx) h
          · exact h1 (List.mem_map.2 ⟨x, hx, List.mem_singleton.1 h⟩)
        · rintro ⟨h1, h2⟩
          refine ⟨⟨fun hmem => ?_, h1⟩, fun x hx => ?_⟩
          · obtain ⟨x, hx, hxv⟩ := List.mem_map.1 hmem
            exact h2 x hx (List.mem_append.2 (Or.inr (List.mem_singleton.2 hxv)))
          · rcases List.mem_cons.1 hx with rfl | hx
            · rw [hverf]; exact hin
            · exact fun h => h2 x hx (List.mem_append.2 (Or.inl h))
      rw [hstep]
      constructor
      · intro h
        rw [ih1 (hcond.1 h)]
        simp [hverf, recOf]
      · intro h
        exact ih2 (fun h2 => h (hcond.2 h2))

theorem lookup_of_mem_nodup {β : Type} (l : List (Nat × β)) (k : Nat) (b : β)
    (hnd : (l.map Prod.fst).Nodup) (hm : (k, b) ∈ l) : l.lookup k = some b := by
  induction l with
  | nil => simp at hm
  | cons p l ih =>
    obtain ⟨k2, b2⟩ := p
    simp only [List.map_cons, List.nodup_cons, List.mem_map, not_exists, not_and] at hnd
    rcases List.mem_cons.1 hm with h | h
    · cases h; simp
    · have hne : k ≠ k2 := by
        rintro rfl
        exact hnd.1 (k, b) h rfl
      rw [List.lookup_cons, beq_false_of_ne hne]
      exact ih hnd.2 h

theorem mapIndex_collected (files : List (List Char)) (hnd : (files.map ver).Nodup)
    (f : List Char) (hf : f ∈ files) :
    mapIndex ((files.map fun f => (ver f, recOf f)).reverse ++ []) (ver f) = recOf f := by
  have : ((files.map fun f => (ver f, recOf f)).reverse ++ []).lookup (ver f) = some (recOf f) := by
    apply lookup_of_mem_nodup
    · simpa [Function.comp_def] using hnd
    · simp only [List.append_nil, List.mem_reverse, List.mem_map]
      exact ⟨f, hf, rfl⟩
  rw [mapIndex, this]
  rfl

/-- What the scanner returns when the versions of the candidates are distinct. -/
theorem ListAvailableMigrations_ok (entries : List DirEntry) (rf : List Char → Option (List Char))
    (hnd : ((candidates entries).map (·.version)).Nodup) :
    ∃ ms, ListAvailableMigrations ⟨some entries, rf⟩ = .ok ms ∧ ms.Perm (candidates entries) ∧
      ms.map (·.version) = ((migrationFiles entries).map ver).insertionSort (· ≤ ·) := by
  rw [candidates_versions] at hnd
  have hc := (collectVersions_spec (migrationFiles entries) [] []
    (migrationFiles_match entries) (by simp)).1 ⟨hnd, by simp⟩
  refine ⟨_, by simp only [ListAvailableMigrations, hc]; rfl, ?_, ?_⟩
  · rw [candidates_eq]
    have h1 := (List.perm_insertionSort (· ≤ ·) (([] : List Nat) ++ (migrationFiles entries).map ver)).map
      (mapIndex ((List.map (fun f => (ver f, recOf f)) (migrationFiles entries)).reverse ++ []))
    refine h1.trans ?_
    rw [List.nil_append, List.map_map]
    apply List.Perm.of_eq
    apply List.map_congr_left
    intro f hf
    exact mapIndex_collected _ hnd f hf
  · rw [List.nil_append, List.map_map]
    conv_rhs => rw [← List.map_id (List.insertionSort _ _)]
    apply List.map_congr_left
    intro v hv
    have hv2 : v ∈ (migrationFiles entries).map ver :=
      (List.perm_insertionSort (· ≤ ·) _).subset hv
    obtain ⟨f, hf, rfl⟩ := List.mem_map.1 hv2
    show (mapIndex _ (ver f)).version = ver f
    rw [mapIndex_collected _ hnd f hf]
    rfl

/-- The scanner's result has strictly ascending versions. -/
theorem ListAvailableMigrations_sorted (fs : FileSystem) (ms : List migrationFileInfo)
    (h : ListAvailableMigrations fs = .ok ms) : (ms.map (·.version)).Sorted (· < ·) := by
  cases hw : fs.walk with
  | none => simp [ListAvailableMigrations, hw] at h
  | some entries =>
    have hfs : fs = ⟨some entries, fs.readFile⟩ := by cases fs; simp_all
    by_cases hnd : ((candidates entries).map (·.version)).Nodup
    · obtain ⟨ms2, h2, -, h4⟩ := ListAvailableMigrations_ok entries fs.readFile hnd
      rw [← hfs, h] at h2
      cases h2
      rw [h4]
      refine (List.sorted_insertionSort (· ≤ ·) _).lt_of_le ?_
      rw [candidates_versions] at hnd
      exact (List.perm_insertionSort (· ≤ ·) _).nodup_iff.2 hnd
    · rw [candidates_versions] at hnd
      obtain ⟨v, hv⟩ := (collectVersions_spec (migrationFiles entries) [] []
        (migrationFiles_match entries) (by simp)).2 (fun hh => hnd hh.1)
      simp [ListAvailableMigrations, hw, hv] at h

/-! ## The installed-version reader -/

theorem selectInstalledVersion_eq_none (rows : List MigrationsTable) :
    selectInstalledVersion rows = none ↔ rows = [] := by
  cases rows with
  | nil => simp [selectInstalledVersion]
  | cons r rs =>
    simp only [selectInstalledVersion]
    split <;> simp

theorem selectInstalledVersion_some (rows : List MigrationsTable) (m : Nat)
    (h : selectInstalledVersion rows = some m) :
    (∃ r ∈ rows, r.Version = m) ∧ ∀ r ∈ rows, r.Version ≤ m := by
  induction rows generalizing m with
  | nil => simp [selectInstalledVersion] at h
  | cons r rs ih =>
    simp only [selectInstalledVersion] at h
    split at h
    · rename_i hn
      have hrs := (selectInstalledVersion_eq_none rs).1 hn
      subst hrs
      simp only [Option.some.injEq] at h
      subst h
      simp
    · rename_i m2 hm2
      obtain ⟨⟨r2, hr2, hv2⟩, hle⟩ := ih m2 hm2
      simp only [Option.some.injEq] at h
      subst h
      constructor
      · rcases le_total r.Version m2 with hc | hc
        · exact ⟨r2, by simp [hr2], by rw [hv2, max_eq_right hc]⟩
        · exact ⟨r, by simp, by rw [max_eq_left hc]⟩
      · intro x hx
        rcases List.mem_cons.1 hx with rfl | hx
        · exact le_max_left _ _
        · exact le_trans (hle x hx) (le_max_right _ _)

theorem selectInstalledVersion_of (rows : List MigrationsTable) (m : Nat)
    (hmem : ∃ r ∈ rows, r.Version = m) (hle : ∀ r ∈ rows, r.Version ≤ m) :
    selectInstalledVersion rows = some m := by
  cases h : selectInstalledVersion rows with
  | none =>
    obtain ⟨r, hr, -⟩ := hmem
    rw [(selectInstalledVersion_eq_none rows).1 h] at hr
    simp at hr
  | some m2 =>
    obtain ⟨⟨r2, hr2, hv2⟩, hle2⟩ := selectInstalledVersion_some rows m2 h
    obtain ⟨r, hr, hv⟩ := hmem
    have h1 : m ≤ m2 := hv ▸ hle2 r hr
    have h2 : m2 ≤ m := hv2 ▸ hle r2 hr2
    rw [le_antisymm h1 h2]

/-- Every recorded version is at most the installed version the reader reports. -/
theorem le_installedVersion {σ : Type} (db : Database σ) (rows : List MigrationsTable)
    (hrows : db.migrations.getD [] = rows) : ∀ r ∈ rows, r.Version ≤ installedVersion db := by
  intro r hr
  simp only [installedVersion, hrows]
  cases h : selectInstalledVersion rows with
  | none =>
    rw [(selectInstalledVersion_eq_none rows).1 h] at hr
    simp at hr
  | some m => exact (selectInstalledVersion_some rows m h).2 r hr

theorem EnsureMigrationTableExists_spec {σ : Type} (D : Driver σ) (db db1 : Database σ)
    (r : Except Fatal Unit) (h : EnsureMigrationTableExists D db = (r, db1)) :
    db1.schema = db.schema ∧
    (db1.migrations = db.migrations ∨ (db.migrations = none ∧ db1.migrations = some [])) ∧
    (∃ pre, db1.trace = db.trace ++ pre ∧ (∀ s ∈ pre, s.isReconcile = true) ∧
      (db.migrations.isSome = true → ∀ s ∈ pre, s.isRead = true) ∧
      (db.migrations = none → r = .ok () → pre = [.checkTable, .createTable]) ∧
      (db.migrations.isSome = true → r = .ok () → pre = [.checkTable])) ∧
    (r = .ok () → db1.migrations = some (db.migrations.getD [])) := by
  unfold EnsureMigrationTableExists at h
  simp only [Database.sent] at h
  split at h
  · cases h
    exact ⟨rfl, Or.inl rfl, ⟨[.checkTable], rfl, by simp [Stmt.isReconcile], by simp [Stmt.isRead],
      by simp, by simp⟩, by simp⟩
  · split at h
    · rename_i hn
      have hnone : db.migrations = none := by simpa using hn
      split at h
      · cases h
        exact ⟨rfl, Or.inl rfl, ⟨[.checkTable, .createTable], by simp, by simp [Stmt.isReconcile],
          by simp [hnone], by simp, by simp [hnone]⟩, by simp⟩
      · cases h
        exact ⟨rfl, Or.inr ⟨hnone, rfl⟩, ⟨[.checkTable, .createTable], by simp,
          by simp [Stmt.isReconcile], by simp [hnone], by simp, by simp [hnone]⟩, by simp [hnone]⟩
    · rename_i hn
      cases h
      obtain ⟨rows, hrows⟩ : ∃ rows, db.migrations = some rows := by
        cases hm : db.migrations with
        | none => simp [hm] at hn
        | some rows => exact ⟨rows, rfl⟩
      exact ⟨rfl, Or.inl rfl, ⟨[.checkTable], rfl, by simp [Stmt.isReconcile], by simp [Stmt.isRead],
        by simp [hrows], by simp⟩, by simp [hrows]⟩

theorem getInstalledMigrationVersion_spec {σ : Type} (D : Driver σ) (db db1 : Database σ)
    (r : Except Fatal Nat) (h : getInstalledMigrationVersion D db = (r, db1)) :
    db1.schema = db.schema ∧
    (db1.migrations = db.migrations ∨ (db.migrations = none ∧ db1.migrations = some [])) ∧
    (∃ pre, db1.trace = db.trace ++ pre ∧ (∀ s ∈ pre, s.isReconcile = true) ∧
      (db.migrations.isSome = true → ∀ s ∈ pre, s.isRead = true) ∧
      (db.migrations = none → (∃ v, r = .ok v) → pre = [.checkTable, .createTable, .selectVersion]) ∧
      (db.migrations.isSome = true → (∃ v, r = .ok v) → pre = [.checkTable, .selectVersion])) ∧
    (∀ v, r = .ok v → db1.migrations = some (db.migrations.getD []) ∧ v = installedVersion db) := by
  unfold getInstalledMigrationVersion at h
  cases he : EnsureMigrationTableExists D db with
  | mk r0 db0 =>
    obtain ⟨hs, hm, ⟨pre, ht, hrec, hread, hcre, hex⟩, hok⟩ :=
      EnsureMigrationTableExists_spec D db db0 r0 he
    rw [he] at h
    cases r0 with
    | error e =>
      cases h
      exact ⟨hs, hm, ⟨pre, ht, hrec, hread, by simp, by simp⟩, by simp⟩
    | ok u =>
      have hm0 := hok rfl
      have htr : ∀ x : Database σ, x.trace = db0.trace ++ [.selectVersion] →
          ∃ pre2, x.trace = db.trace ++ pre2 ∧ (∀ s ∈ pre2, s.isReconcile = true) ∧
            (db.migrations.isSome = true → ∀ s ∈ pre2, s.isRead = true) ∧
            (db.migrations = none → pre2 = [.checkTable, .createTable, .selectVersion]) ∧
            (db.migrations.isSome = true → pre2 = [.checkTable, .selectVersion]) := by
        intro x hx
        refine ⟨pre ++ [.selectVersion], by rw [hx, ht, List.append_assoc], ?_, ?_, ?_, ?_⟩
        · intro s hs
          rcases List.mem_append.1 hs with h1 | h1
          · exact hrec s h1
          · rw [List.mem_singleton.1 h1]; rfl
        · intro hsome s hs
          rcases List.mem_append.1 hs with h1 | h1
          · exact hread hsome s h1
          · rw [List.mem_singleton.1 h1]; rfl
        · intro hn
          rw [hcre hn rfl]; rfl
        · intro hn
          rw [hex hn rfl]; rfl
      simp only [Database.sent] at h
      split at h
      · cases h
        obtain ⟨pre2, h1, h2, h3, h4, h5⟩ := htr ⟨db0.schema, db0.migrations, db0.trace ++ [.selectVersion]⟩ rfl
        exact ⟨hs, hm, ⟨pre2, h1, h2, h3, fun hn _ => h4 hn, fun hn _ => h5 hn⟩, by simp⟩
      · split at h
        · rename_i hnone
          rw [hm0] at hnone
          cases hnone
        · rename_i rows hrows
          have hr : db.migrations.getD [] = rows := by
            rw [hm0] at hrows
            exact Option.some.inj hrows
          obtain ⟨pre2, h1, h2, h3, h4, h5⟩ :=
            htr ⟨db0.schema, db0.migrations, db0.trace ++ [.selectVersion]⟩ rfl
          split at h
          · rename_i hsel
            cases h
            refine ⟨hs, hm, ⟨pre2, h1, h2, h3, fun hn _ => h4 hn, fun hn _ => h5 hn⟩, ?_⟩
            intro v hv
            cases hv
            exact ⟨hm0, by simp [installedVersion, hr, hsel]⟩
          · rename_i version hsel
            cases h
            refine ⟨hs, hm, ⟨pre2, h1, h2, h3, fun hn _ => h4 hn, fun hn _ => h5 hn⟩, ?_⟩
            intro v hv
            cases hv
            exact ⟨hm0, by simp [installedVersion, hr, hsel]⟩

/-! ## The reconciler -/

/-- The migration state describes the scanner's list and the database. -/
theorem GetLiveMigrationInfo_spec {σ : Type} (D : Driver σ) (fs : FileSystem)
    (db db1 : Database σ) (st : MigrationState)
    (h : GetLiveMigrationInfo D fs db = (.ok st, db1)) :
    getInstalledMigrationVersion D db = (.ok st.InstalledVersion, db1) ∧
    ListAvailableMigrations fs = .ok st.Migrations ∧
    st.AvailableVersion = ((st.Migrations.getLast?).map (·.version)).getD 0 := by
  unfold GetLiveMigrationInfo at h
  cases hg : getInstalledMigrationVersion D db with
  | mk r0 db0 =>
    rw [hg] at h
    cases r0 with
    | error e => cases h
    | ok v =>
      simp only at h
      cases hl : ListAvailableMigrations fs with
      | error e => rw [hl] at h; cases h
      | ok all =>
        rw [hl] at h
        simp only at h
        split at h
        · rename_i hlast
          cases h
          have : all = [] := by simpa using hlast
          subst this
          exact ⟨rfl, rfl, rfl⟩
        · rename_i m hlast
          cases h
          exact ⟨rfl, rfl, by simp [hlast]⟩

/-- On error the reconciler has done what the installed-version reader did. -/
theorem GetLiveMigrationInfo_db {σ : Type} (D : Driver σ) (fs : FileSystem) (db : Database σ) :
    (GetLiveMigrationInfo D fs db).2 = (getInstalledMigrationVersion D db).2 := by
  unfold GetLiveMigrationInfo
  cases hg : getInstalledMigrationVersion D db with
  | mk r0 db0 =>
    cases r0 with
    | error e => rfl
    | ok v =>
      simp only
      cases hl : ListAvailableMigrations fs with
      | error e => rfl
      | ok all =>
        simp only
        split <;> rfl

/-! ## One transaction -/

theorem applyMigrationUp_ok {σ : Type} (D : Driver σ) (m : migrationFileInfo)
    (db db1 : Database σ) (h : applyMigrationUp D m db = (.ok (), db1)) :
    ∃ t rows s1, m.contents.isSome = true ∧ db.migrations = some rows ∧
      D.run (upSql m) db.schema = some s1 ∧
      db1 = ⟨s1, some (rows ++ [⟨m.version, t⟩]), db.trace ++ upTx m t⟩ := by
  unfold applyMigrationUp at h
  simp only [Database.sent, Database.discard] at h
  split at h
  · cases h
  · split at h
    · cases h
    · rename_i c hc
      split at h
      · cases h
      · rename_i s1 hs1
        split at h
        · cases h
        · rename_i rows hrows
          split at h
          · cases h
          · cases h
            split at hs1
            · cases hs1
            · split at hrows
              · cases hrows
              · exact ⟨D.now ⟨s1, db.migrations, db.trace ++ [.begin] ++ [.exec c.up]⟩, rows, s1,
                  by simp [hc], hrows, by simpa [upSql, hc] using hs1, by simp [upTx, upSql, hc]⟩

theorem applyMigrationUp_error {σ : Type} (D : Driver σ) (m : migrationFileInfo)
    (db db1 : Database σ) (e : Fatal) (h : applyMigrationUp D m db = (.error e, db1)) :
    db1.schema = db.schema ∧ db1.migrations = db.migrations ∧
    (e = .beginTx ∧ db1.trace = db.trace ++ [.begin] ∨
     e = .nilContents ∧ db1.trace = db.trace ++ [.begin] ∨
     e = .applyExec m.version ∧ db1.trace = db.trace ++ [.begin, .exec (upSql m), .rollback] ∨
     (∃ t, e = .insertVersion m.version ∧
        db1.trace = db.trace ++ [.begin, .exec (upSql m), .insert m.version t, .rollback]) ∨
     (∃ t, e = .commitTx m.version ∧
        db1.trace = db.trace ++ [.begin, .exec (upSql m), .insert m.version t, .commit])) := by
  unfold applyMigrationUp at h
  simp only [Database.sent, Database.discard] at h
  split at h
  · cases h
    exact ⟨rfl, rfl, Or.inl ⟨rfl, rfl⟩⟩
  · split at h
    · cases h
      exact ⟨rfl, rfl, Or.inr (Or.inl ⟨rfl, rfl⟩)⟩
    · rename_i c hc
      split at h
      · cases h
        exact ⟨rfl, rfl, Or.inr (Or.inr (Or.inl ⟨rfl, by simp [upSql, hc]⟩))⟩
      · split at h
        · cases h
          rename_i s1 _ _ _
          exact ⟨rfl, rfl, Or.inr (Or.inr (Or.inr (Or.inl
            ⟨D.now ⟨s1, db.migrations, db.trace ++ [.begin] ++ [.exec c.up]⟩, rfl,
              by simp [upSql, hc]⟩)))⟩
        · split at h
          · cases h
            rename_i s1 _ _ _ _ _
            exact ⟨rfl, rfl, Or.inr (Or.inr (Or.inr (Or.inr
              ⟨D.now ⟨s1, db.migrations, db.trace ++ [.begin] ++ [.exec c.up]⟩, rfl,
                by simp [upSql, hc]⟩)))⟩
          · cases h

/-! ## The batch -/

theorem applyAllUp_ok {σ : Type} (D : Driver σ) (ms : List migrationFileInfo) :
    ∀ (db db1 : Database σ), applyAllUp D ms db = (.ok (), db1) →
      ∃ ts : List Nat, ts.length = ms.length ∧
        db1.trace = db.trace ++ upTrace ms ts ∧
        db1.migrations = db.migrations.map (· ++ upRows ms ts) ∧
        runAll D (ms.map upSql) db.schema = some db1.schema := by
  induction ms with
  | nil =>
    intro db db1 h
    simp only [applyAllUp] at h
    cases h
    exact ⟨[], rfl, by simp [upTrace], by simp [upRows], rfl⟩
  | cons m ms ih =>
    intro db db1 h
    simp only [applyAllUp] at h
    cases h1 : applyMigrationUp D m db with
    | mk r dbm =>
      rw [h1] at h
      cases r with
      | error e => cases h
      | ok u =>
        simp only at h
        obtain ⟨t, rows, s1, -, hrows, hrun, rfl⟩ := applyMigrationUp_ok D m db dbm h1
        obtain ⟨ts, hlen, htr, hmig, hsch⟩ := ih _ db1 h
        refine ⟨t :: ts, by simp [hlen], ?_, ?_, ?_⟩
        · rw [htr]; simp [upTrace]
        · rw [hmig, hrows]; simp [upRows]
        · simp only [List.map_cons, runAll, hrun]
          exact hsch

theorem fillAll_ok (fs : FileSystem) (ms : List migrationFileInfo) :
    ∀ filled, fillAll fs ms = .ok filled → List.Forall₂ (LoadedFrom fs) ms filled := by
  induction ms with
  | nil =>
    intro filled h
    simp only [fillAll] at h
    cases h
    exact List.Forall₂.nil
  | cons m ms ih =>
    intro filled h
    simp only [fillAll] at h
    cases h1 : fillMigrationContents fs m with
    | error e => rw [h1] at h; cases h
    | ok m1 =>
      rw [h1] at h
      simp only at h
      cases h2 : fillAll fs ms with
      | error e => rw [h2] at h; cases h
      | ok rest =>
        rw [h2] at h
        cases h
        refine List.Forall₂.cons ?_ (ih rest h2)
        unfold fillMigrationContents at h1
        cases hr : fs.readFile m.file with
        | none => rw [hr] at h1; cases h1
        | some text =>
          rw [hr] at h1
          simp only at h1
          cases hp : parseContents m.version text with
          | error e => rw [hp] at h1; cases h1
          | ok c =>
            rw [hp] at h1
            cases h1
            exact ⟨text, c, hr, hp, rfl⟩

theorem LoadedFrom_versions (fs : FileSystem) (ms filled : List migrationFileInfo)
    (h : List.Forall₂ (LoadedFrom fs) ms filled) :
    filled.map (·.version) = ms.map (·.version) := by
  induction h with
  | nil => rfl
  | cons hab _ ih =>
    obtain ⟨text, c, -, -, rfl⟩ := hab
    simp [ih]

theorem upRows_versions (ms : List migrationFileInfo) :
    ∀ ts : List Nat, ts.length = ms.length → (upRows ms ts).map (·.Version) = ms.map (·.version) := by
  induction ms with
  | nil => intro ts _; cases ts <;> rfl
  | cons m ms ih =>
    intro ts h
    cases ts with
    | nil => simp at h
    | cons t ts => simp [upRows, ih ts (by simpa using h)]

/-! ## Success and failure of a transaction from the statements' outcomes -/

theorem toBool_ok {α : Type} (r : Except Fatal α) (h : r.toBool = true) : ∃ a, r = .ok a := by
  cases r with
  | error e => simp [Except.toBool] at h
  | ok a => exact ⟨a, rfl⟩

theorem MigrateUp_eq {σ : Type} (D : Driver σ) (fs : FileSystem) (db db1 : Database σ)
    (st : MigrationState) (hst : GetLiveMigrationInfo D fs db = (.ok st, db1)) :
    MigrateUp D fs db = migrateUpFrom D fs st db1 := by
  simp only [MigrateUp, hst]

theorem MigrateDown_eq {σ : Type} (D : Driver σ) (fs : FileSystem) (db db1 : Database σ)
    (st : MigrationState) (hst : GetLiveMigrationInfo D fs db = (.ok st, db1)) :
    MigrateDown D fs db = migrateDownFrom D fs st db1 := by
  simp only [MigrateDown, hst]

theorem reconciled {σ : Type} (D : Driver σ) (fs : FileSystem) (db db1 : Database σ)
    (st : MigrationState) (hst : GetLiveMigrationInfo D fs db = (.ok st, db1)) :
    Reconciled db db1 st := by
  obtain ⟨hinst, hlist, havail⟩ := GetLiveMigrationInfo_spec D fs db db1 st hst
  obtain ⟨hs, -, -, hok⟩ := getInstalledMigrationVersion_spec D db db1 _ hinst
  have hsorted := ListAvailableMigrations_sorted fs st.Migrations hlist
  obtain ⟨hrows, hv⟩ := hok _ rfl
  refine ⟨hsorted, ?_, ?_, hv, hrows, hs⟩
  · intro m hm
    cases hl : st.Migrations.getLast? with
    | none => rw [List.getLast?_eq_none_iff.1 hl] at hm; simp at hm
    | some last =>
      rw [hl] at havail
      obtain ⟨ys, hys⟩ := List.getLast?_eq_some_iff.1 hl
      rw [hys, List.map_append, List.Sorted, List.pairwise_append] at hsorted
      rw [hys] at hm
      simp only [Option.map_some', Option.getD_some] at havail
      rw [havail]
      rcases List.mem_append.1 hm with h | h
      · exact le_of_lt (hsorted.2.2 _ (List.mem_map.2 ⟨m, h, rfl⟩) _ (by simp))
      · rw [List.mem_singleton.1 h]
  · intro hpos
    cases hl : st.Migrations.getLast? with
    | none => rw [hl] at havail; simp at havail; omega
    | some last =>
      rw [hl] at havail
      obtain ⟨ys, hys⟩ := List.getLast?_eq_some_iff.1 hl
      exact ⟨last, by rw [hys]; simp, by simp [havail]⟩

theorem migrationsToApply_sorted (st : MigrationState)
    (h : (st.Migrations.map (·.version)).Sorted (· < ·)) :
    ((migrationsToApply st).map (·.version)).Sorted (· < ·) := by
  rw [List.Sorted, List.pairwise_map] at h ⊢
  exact h.filter _

theorem mem_migrationsToApply (st : MigrationState) (m : migrationFileInfo) :
    m ∈ migrationsToApply st ↔ m ∈ st.Migrations ∧ st.InstalledVersion < m.version := by
  simp [migrationsToApply]

/-! ## C1 -/

theorem migrateUpFrom_behind_ok {σ : Type} (D : Driver σ) (fs : FileSystem)
    (st : MigrationState) (db1 : Database σ)
    (hlt : st.InstalledVersion < st.AvailableVersion)
    (hok : (migrateUpFrom D fs st db1).1.toBool = true) :
    ∃ filled db2, fillAll fs (migrationsToApply st) = .ok filled ∧
      applyAllUp D filled db1 = (.ok (), db2) ∧
      migrateUpFrom D fs st db1 = (.ok false, db2) := by
  unfold migrateUpFrom at hok ⊢
  rw [if_neg (Nat.ne_of_lt hlt), if_neg (Nat.lt_asymm hlt)] at hok ⊢
  cases hfill : fillAll fs (migrationsToApply st) with
  | error e => rw [hfill] at hok; simp [Except.toBool] at hok
  | ok filled =>
    rw [hfill] at hok
    simp only at hok ⊢
    cases happ : applyAllUp D filled db1 with
    | mk r db2 =>
      rw [happ] at hok
      cases r with
      | error e => simp [Except.toBool] at hok
      | ok u => exact ⟨filled, db2, rfl, happ, by simp only [happ]⟩

theorem applyAllUp_error {σ : Type} (D : Driver σ) (ms : List migrationFileInfo) :
    ∀ (db db2 : Database σ) (e : Fatal), applyAllUp D ms db = (.error e, db2) →
      ∃ before K after dbm, ms = before ++ K :: after ∧
        applyAllUp D before db = (.ok (), dbm) ∧ applyMigrationUp D K dbm = (.error e, db2) := by
  induction ms with
  | nil => intro db db2 e h; simp [applyAllUp] at h
  | cons m ms ih =>
    intro db db2 e h
    simp only [applyAllUp] at h
    cases h1 : applyMigrationUp D m db with
    | mk r dbm =>
      rw [h1] at h
      cases r with
      | error e1 =>
        cases h
        exact ⟨[], m, ms, db, rfl, rfl, h1⟩
      | ok u =>
        simp only at h
        obtain ⟨before, K, after, dbk, hms, hb, hk⟩ := ih dbm db2 e h
        refine ⟨m :: before, K, after, dbk, by simp [hms], ?_, hk⟩
        simp only [applyAllUp, h1]
        exact hb

/-- The fatal errors of the apply phase. -/
theorem fillLoop_error_kind (version : Nat) (lines : List (List Char)) :
    ∀ (st : fillState) (e : Fatal), fillLoop version st lines = .error e →
      e = .duplicateUp version ∨ e = .duplicateDown version := by
  induction lines with
  | nil => intro st e h; simp [fillLoop] at h
  | cons line rest ih =>
    intro st e h
    simp only [fillLoop] at h
    cases hs : fillStep version st line with
    | error e1 =>
      rw [hs] at h
      cases h
      unfold fillStep at hs
      repeat' split at hs
      all_goals first
        | (cases hs; exact Or.inl rfl)
        | (cases hs; exact Or.inr rfl)
        | cases hs
    | ok st1 =>
      rw [hs] at h
      exact ih st1 e h

theorem parseContents_error_kind (version : Nat) (text : List Char) (e : Fatal)
    (h : parseContents version text = .error e) :
    e = .duplicateUp version ∨ e = .duplicateDown version ∨ e = .missingUp version ∨
      e = .missingDown version := by
  unfold parseContents at h
  cases hl : fillLoop version fillState.init (scanLines text) with
  | error e1 =>
    rw [hl] at h
    cases h
    rcases fillLoop_error_kind version _ _ _ hl with h1 | h1
    · exact Or.inl h1
    · exact Or.inr (Or.inl h1)
  | ok st =>
    rw [hl] at h
    simp only at h
    split at h
    · cases h; exact Or.inr (Or.inr (Or.inl rfl))
    · split at h
      · cases h; exact Or.inr (Or.inr (Or.inr rfl))
      · cases h

theorem fillMigrationContents_error_kind (fs : FileSystem) (m : migrationFileInfo) (e : Fatal)
    (h : fillMigrationContents fs m = .error e) (k : Nat) :
    e ≠ .applyExec k ∧ e ≠ .insertVersion k := by
  unfold fillMigrationContents at h
  cases hr : fs.readFile m.file with
  | none => rw [hr] at h; cases h; exact ⟨by simp, by simp⟩
  | some text =>
    rw [hr] at h
    simp only at h
    cases hp : parseContents m.version text with
    | error e1 =>
      rw [hp] at h
      cases h
      rcases parseContents_error_kind _ _ _ hp with h1 | h1 | h1 | h1 <;> rw [h1] <;>
        exact ⟨by simp, by simp⟩
    | ok c => rw [hp] at h; cases h

theorem fillAll_error_kind (fs : FileSystem) (ms : List migrationFileInfo) :
    ∀ (e : Fatal), fillAll fs ms = .error e → ∀ k : Nat, e ≠ .applyExec k ∧ e ≠ .insertVersion k := by
  induction ms with
  | nil => intro e h; simp [fillAll] at h
  | cons m ms ih =>
    intro e h k
    simp only [fillAll] at h
    cases h1 : fillMigrationContents fs m with
    | error e1 =>
      rw [h1] at h
      cases h
      exact fillMigrationContents_error_kind fs m _ h1 k
    | ok m1 =>
      rw [h1] at h
      simp only at h
      cases h2 : fillAll fs ms with
      | error e2 => rw [h2] at h; cases h; exact ih _ h2 k
      | ok rest => rw [h2] at h; cases h

theorem migrateUpFrom_apply_error {σ : Type} (D : Driver σ) (fs : FileSystem)
    (st : MigrationState) (db1 : Database σ) (k : Nat)
    (hfail : (migrateUpFrom D fs st db1).1 = .error (.applyExec k) ∨
      (migrateUpFrom D fs st db1).1 = .error (.insertVersion k)) :
    ∃ filled e, fillAll fs (migrationsToApply st) = .ok filled ∧
      (e = .applyExec k ∨ e = .insertVersion k) ∧
      applyAllUp D filled db1 = (.error e, (migrateUpFrom D fs st db1).2) := by
  unfold migrateUpFrom at hfail ⊢
  split at hfail
  · rcases hfail with h | h <;> cases h
  · split at hfail
    · rcases hfail with h | h <;> cases h
    · rename_i h1 h2
      rw [if_neg h1, if_neg h2]
      cases hfill : fillAll fs (migrationsToApply st) with
      | error e1 =>
        rw [hfill] at hfail
        have := fillAll_error_kind fs _ e1 hfill k
        rcases hfail with h | h
        · cases h; exact absurd rfl this.1
        · cases h; exact absurd rfl this.2
      | ok filled =>
        rw [hfill] at hfail
        simp only at hfail ⊢
        cases happ : applyAllUp D filled db1 with
        | mk r db2 =>
          rw [happ] at hfail
          cases r with
          | ok u => rcases hfail with h | h <;> cases h
          | error e1 =>
            refine ⟨filled, e1, rfl, ?_, happ⟩
            rcases hfail with h | h
            · cases h; exact Or.inl rfl
            · cases h; exact Or.inr rfl

/-- What a `MigrateUp` has done that ends in the fatal error of the up-SQL or
of the bookkeeping insert of the migration with version `k`: the loaded batch splits
as `before ++ K :: after` with `K` the migration of version `k`, the versions
of `before` below `k` and those of `after` above it; every migration of
`before` is committed (its transaction is in the trace, its row is in the
table, its up-SQL is in the schema); the transaction of `K` ends in a
rollback, the table has no row for `k` and the schema has nothing of `K`; the
trace ends with that rollback, so no statement of `after` is sent. -/
theorem migrateUp_failure_result_of_fatal {σ : Type} (D : Driver σ) (fs : FileSystem)
    (db db1 : Database σ) (st : MigrationState) (k : Nat)
    (hst : GetLiveMigrationInfo D fs db = (.ok st, db1))
    (hfail : (MigrateUp D fs db).1 = .error (.applyExec k) ∨
      (MigrateUp D fs db).1 = .error (.insertVersion k)) :
    ∃ (before : List migrationFileInfo) (K : migrationFileInfo) (after : List migrationFileInfo)
      (ts : List Nat) (rows : List MigrationsTable),
      fillAll fs (migrationsToApply st) = .ok (before ++ K :: after) ∧
      K.version = k ∧ (∀ m ∈ before, m.version < k) ∧ (∀ m ∈ after, k < m.version) ∧
      ts.length = before.length ∧
      db1.migrations = some rows ∧
      (MigrateUp D fs db).2.migrations = some (rows ++ upRows before ts) ∧
      (∀ r ∈ rows ++ upRows before ts, r.Version ≠ k) ∧
      runAll D (before.map upSql) db1.schema = some (MigrateUp D fs db).2.schema ∧
      ((MigrateUp D fs db).2.trace =
          db1.trace ++ upTrace before ts ++ [.begin, .exec (upSql K), .rollback] ∨
        ∃ t, (MigrateUp D fs db).2.trace =
          db1.trace ++ upTrace before ts ++ [.begin, .exec (upSql K), .insert k t, .rollback]) := by
  have hrec := reconciled D fs db db1 st hst
  rw [MigrateUp_eq D fs db db1 st hst] at hfail ⊢
  obtain ⟨filled, e, hfill, he, happ⟩ := migrateUpFrom_apply_error D fs st db1 k hfail
  obtain ⟨before, K, after, dbm, hms, hb, hk⟩ := applyAllUp_error D filled db1 _ e happ
  obtain ⟨ts, hlen, htr, hmig, hsch⟩ := applyAllUp_ok D before db1 dbm hb
  obtain ⟨hs2, hm2, hcase⟩ := applyMigrationUp_error D K dbm _ e hk
  have hload := fillAll_ok fs _ filled hfill
  have hvers := LoadedFrom_versions fs _ filled hload
  have hsorted : (filled.map (·.version)).Sorted (· < ·) := by
    rw [hvers]; exact migrationsToApply_sorted st hrec.sorted
  rw [hms, List.map_append, List.map_cons, List.Sorted, List.pairwise_append,
    List.pairwise_cons] at hsorted
  obtain ⟨-, ⟨hafter, -⟩, hbefore⟩ := hsorted
  have hKv : K.version = k ∧
      (dbm.trace ++ [.begin, .exec (upSql K), .rollback] = (migrateUpFrom D fs st db1).2.trace ∨
       ∃ t, dbm.trace ++ [.begin, .exec (upSql K), .insert k t, .rollback] =
         (migrateUpFrom D fs st db1).2.trace) := by
    rcases hcase with ⟨h1, -⟩ | ⟨h1, -⟩ | ⟨h1, h2⟩ | ⟨t, h1, h2⟩ | ⟨t, h1, -⟩
    · rcases he with h | h <;> rw [h] at h1 <;> cases h1
    · rcases he with h | h <;> rw [h] at h1 <;> cases h1
    · rcases he with h | h <;> rw [h] at h1
      · cases h1; exact ⟨rfl, Or.inl h2.symm⟩
      · cases h1
    · rcases he with h | h <;> rw [h] at h1
      · cases h1
      · cases h1; exact ⟨rfl, Or.inr ⟨t, h2.symm⟩⟩
    · rcases he with h | h <;> rw [h] at h1 <;> cases h1
  obtain ⟨hKk, htrace⟩ := hKv
  have hKpending : st.InstalledVersion < k := by
    have : K.version ∈ (migrationsToApply st).map (·.version) := by
      rw [← hvers, hms]; simp
    obtain ⟨m, hm, hmv⟩ := List.mem_map.1 this
    rw [← hKk, ← hmv]
    exact ((mem_migrationsToApply st m).1 hm).2
  refine ⟨before, K, after, ts, db.migrations.getD [], hms ▸ hfill, hKk, ?_, ?_, hlen, hrec.rows,
    ?_, ?_, ?_, ?_⟩
  · intro m hm
    rw [← hKk]
    exact hbefore _ (List.mem_map.2 ⟨m, hm, rfl⟩) _ (by simp)
  · intro m hm
    rw [← hKk]
    exact hafter _ (List.mem_map.2 ⟨m, hm, rfl⟩)
  · rw [hm2, hmig, hrec.rows]; rfl
  · intro r hr
    rcases List.mem_append.1 hr with h | h
    · have := le_installedVersion db _ rfl r h
      rw [← hrec.installed] at this
      omega
    · have : r.Version ∈ (upRows before ts).map (·.Version) := List.mem_map.2 ⟨r, h, rfl⟩
      rw [upRows_versions before ts hlen] at this
      have := hbefore _ this K.version (by simp)
      omega
  · rw [hs2]; exact hsch
  · rcases htrace with h | ⟨t, h⟩
    · left; rw [← h, htr]
    · right; exact ⟨t, by rw [← h, htr]⟩

/-- C3 as stated fails: on a database without a bookkeeping table and a tree
without migration files the installed and available versions are both `0`,
`MigrateUp` reports success, and the database has changed: the bookkeeping
table has been created. -/
theorem migrateUp_upToDate_creates_table :
    GetLiveMigrationInfo okDriver (fileSystemOf []) freshDb = (.ok ⟨0, 0, []⟩, freshDbReconciled) ∧
    MigrateUp okDriver (fileSystemOf []) freshDb = (.ok true, freshDbReconciled) ∧
    freshDbReconciled.migrations ≠ freshDb.migrations ∧
    Stmt.createTable ∈ (MigrateUp okDriver (fileSystemOf []) freshDb).2.trace := by
  decide

/-- C3, amended. When the installed version equals the available one,
`MigrateUp` reports success and stops after the reconciliation step: the
schema is unchanged and the rows of the bookkeeping table are unchanged. If
the table exists the stored state is the one before the call and the
statements sent are the existence check and the read of the installed
version; if it does not exist, the one write is its creation. -/
theorem migrateUp_upToDate_only_ensures_table {σ : Type} (D : Driver σ) (fs : FileSystem)
    (db db1 : Database σ) (st : MigrationState)
    (hst : GetLiveMigrationInfo D fs db = (.ok st, db1))
    (heq : st.InstalledVersion = st.AvailableVersion) :
    MigrateUp D fs db = (.ok true, db1) ∧
    db1.schema = db.schema ∧
    db1.migrations.getD [] = db.migrations.getD [] ∧
    (db.migrations.isSome = true →
      db1.migrations = db.migrations ∧ db1.trace = db.trace ++ [.checkTable, .selectVersion]) ∧
    (db.migrations = none →
      db1.migrations = some [] ∧
      db1.trace = db.trace ++ [.checkTable, .createTable, .selectVersion]) := by
  obtain ⟨hinst, -, -⟩ := GetLiveMigrationInfo_spec D fs db db1 st hst
  obtain ⟨hs, -, ⟨pre, htr, -, -, hnone, hsome⟩, hok⟩ :=
    getInstalledMigrationVersion_spec D db db1 _ hinst
  obtain ⟨hrows, -⟩ := hok _ rfl
  refine ⟨?_, hs, by rw [hrows]; rfl, ?_, ?_⟩
  · rw [MigrateUp_eq D fs db db1 st hst]
    unfold migrateUpFrom
    rw [if_pos heq]
  · intro h
    obtain ⟨rows, hr⟩ := Option.isSome_iff_exists.1 h
    exact ⟨by rw [hrows, hr]; rfl, by rw [htr, hsome h ⟨_, rfl⟩]⟩
  · intro h
    exact ⟨by rw [hrows, h]; rfl, by rw [htr, hnone h ⟨_, rfl⟩]⟩

/-- C3, amended, witness: the three files on the database in which they are
all applied. -/
theorem migrateUp_upToDate_only_ensures_table_witness :
    GetLiveMigrationInfo okDriver (fileSystemOf threeFiles) threeApplied =
      (.ok (threeState 3), threeApplied.sent .checkTable |>.sent .selectVersion) ∧
    (threeState 3).InstalledVersion = (threeState 3).AvailableVersion ∧
    (MigrateUp okDriver (fileSystemOf threeFiles) threeApplied =
        (.ok true, threeApplied.sent .checkTable |>.sent .selectVersion) ∧
      (threeApplied.sent .checkTable |>.sent .selectVersion).schema = threeApplied.schema ∧
      (threeApplied.sent .checkTable |>.sent .selectVersion).migrations.getD [] =
        threeApplied.migrations.getD [] ∧
      (threeApplied.migrations.isSome = true →
        (threeApplied.sent .checkTable |>.sent .selectVersion).migrations = threeApplied.migrations ∧
        (threeApplied.sent .checkTable |>.sent .selectVersion).trace =
          threeApplied.trace ++ [.checkTable, .selectVersion]) ∧
      (threeApplied.migrations = none →
        (threeApplied.sent .checkTable |>.sent .selectVersion).migrations = some [] ∧
        (threeApplied.sent .checkTable |>.sent .selectVersion).trace =
          threeApplied.trace ++ [.checkTable, .createTable, .selectVersion])) :=
  ⟨by decide, by decide,
    migrateUp_upToDate_only_ensures_table okDriver (fileSystemOf threeFiles) threeApplied
      (threeApplied.sent .checkTable |>.sent .selectVersion) (threeState 3) (by decide) (by decide)⟩

/-! ## C4 -/

theorem applyMigrationDown_ok {σ : Type} (D : Driver σ) (m : migrationFileInfo)
    (db db1 : Database σ) (h : applyMigrationDown D m db = (.ok (), db1)) :
    ∃ rows s1, m.contents.isSome = true ∧ db.migrations = some rows ∧
      D.run (downSql m) db.schema = some s1 ∧
      db1 = ⟨s1, some (rows.filter fun r => decide (r.Version ≠ m.version)),
        db.trace ++ [.begin, .exec (downSql m), .delete m.version, .commit]⟩ := by
  unfold applyMigrationDown at h
  simp only [Database.sent, Database.discard] at h
  split at h
  · cases h
  · split at h
    · cases h
    · rename_i c hc
      split at h
      · cases h
      · rename_i s1 hs1
        split at h
        · cases h
        · rename_i rows hrows
          split at h
          · cases h
          · cases h
            split at hs1
            · cases hs1
            · split at hrows
              · cases hrows
              · exact ⟨rows, s1, by simp [hc], hrows, by simpa [downSql, hc] using hs1,
                  by simp [downSql, hc]⟩

theorem fillMigrationContents_ok (fs : FileSystem) (m filled : migrationFileInfo)
    (h : fillMigrationContents fs m = .ok filled) : LoadedFrom fs m filled := by
  unfold fillMigrationContents at h
  cases hr : fs.readFile m.file with
  | none => rw [hr] at h; cases h
  | some text =>
    rw [hr] at h
    simp only at h
    cases hp : parseContents m.version text with
    | error e => rw [hp] at h; cases h
    | ok c =>
      rw [hp] at h
      cases h
      exact ⟨text, c, hr, hp, rfl⟩

/-- A successful `migrateDownFrom`: one migration, the first of the installed
version, reverted in one transaction. -/
theorem migrateDownFrom_ok {σ : Type} (D : Driver σ) (fs : FileSystem) (st : MigrationState)
    (db1 : Database σ) (hok : (migrateDownFrom D fs st db1).1.toBool = true) :
    st.InstalledVersion ≠ 0 ∧
    ∃ m filled rows s1, m ∈ st.Migrations ∧ m.version = st.InstalledVersion ∧
      LoadedFrom fs m filled ∧ db1.migrations = some rows ∧
      D.run (downSql filled) db1.schema = some s1 ∧
      migrateDownFrom D fs st db1 = (.ok false,
        ⟨s1, some (rows.filter fun r => decide (r.Version ≠ st.InstalledVersion)),
          db1.trace ++ [.begin, .exec (downSql filled), .delete st.InstalledVersion, .commit]⟩) := by
  unfold migrateDownFrom at hok ⊢
  split at hok
  · simp [Except.toBool] at hok
  · rename_i h0
    rw [if_neg h0]
    refine ⟨h0, ?_⟩
    cases hf : st.Migrations.find? (fun m => decide (m.version = st.InstalledVersion)) with
    | none => rw [hf] at hok; simp [Except.toBool] at hok
    | some m =>
      rw [hf] at hok
      simp only at hok ⊢
      have hmem : m ∈ st.Migrations := List.mem_of_find?_eq_some hf
      have hmv : m.version = st.InstalledVersion := by
        simpa using List.find?_some hf
      cases hfill : fillMigrationContents fs m with
      | error e => rw [hfill] at hok; simp [Except.toBool] at hok
      | ok filled =>
        rw [hfill] at hok
        simp only at hok ⊢
        have hload := fillMigrationContents_ok fs m filled hfill
        have hfv : filled.version = st.InstalledVersion := by
          obtain ⟨_, _, _, _, rfl⟩ := hload
          exact hmv
        cases happ : applyMigrationDown D filled db1 with
        | mk r db2 =>
          rw [happ] at hok
          cases r with
          | error e => simp [Except.toBool] at hok
          | ok u =>
            obtain ⟨rows, s1, -, hrows, hrun, rfl⟩ := applyMigrationDown_ok D filled db1 db2 happ
            refine ⟨m, filled, rows, s1, hmem, hmv, hload, hrows, hrun, ?_⟩
            simp only [hfv]

/-- What a `MigrateDown` that ends without a fatal error has done: the
installed version `v` is positive, exactly one discovered file
has version `v`, and `MigrateDown` has run one transaction and no other
statement after the reconciliation: `begin`, the down-SQL of that file, the
delete of the bookkeeping rows of version `v`, `commit`. The rows of every
other version are kept as they were, and the schema is the result of that one
down-SQL text. -/
theorem migrateDown_result_of_ok {σ : Type} (D : Driver σ) (fs : FileSystem)
    (db db1 : Database σ) (st : MigrationState)
    (hst : GetLiveMigrationInfo D fs db = (.ok st, db1))
    (hok : (MigrateDown D fs db).1.toBool = true) :
    ∃ (m filled : migrationFileInfo) (rows : List MigrationsTable),
      0 < st.InstalledVersion ∧
      m ∈ st.Migrations ∧ m.version = st.InstalledVersion ∧
      (∀ m2 ∈ st.Migrations, m2.version = st.InstalledVersion → m2 = m) ∧
      LoadedFrom fs m filled ∧
      db1.migrations = some rows ∧
      (MigrateDown D fs db).1 = .ok false ∧
      (MigrateDown D fs db).2.trace = db1.trace ++
        [.begin, .exec (downSql filled), .delete st.InstalledVersion, .commit] ∧
      (MigrateDown D fs db).2.migrations =
        some (rows.filter fun r => decide (r.Version ≠ st.InstalledVersion)) ∧
      D.run (downSql filled) db1.schema = some (MigrateDown D fs db).2.schema := by
  have hrec := reconciled D fs db db1 st hst
  rw [MigrateDown_eq D fs db db1 st hst] at hok ⊢
  obtain ⟨hne, m, filled, rows, s1, hmem, hmv, hload, hrows, hrun, heq⟩ :=
    migrateDownFrom_ok D fs st db1 hok
  rw [heq]
  refine ⟨m, filled, rows, Nat.pos_of_ne_zero hne, hmem, hmv, ?_, hload, hrows, rfl, rfl, rfl,
    hrun⟩
  intro m2 hm2 hv2
  have hinj := List.inj_on_of_nodup_map (hrec.sorted.nodup) hm2 hmem
  exact hinj (by rw [hv2, hmv])

/-- C5. After a reconciliation that reports the state `st`: `MigrateUp` with
the installed version above the available one, `MigrateDown` with installed
version `0`, and `MigrateDown` with no discovered file of the installed
version each end in their fatal error with the database exactly as the
reconciliation left it. The reconciliation has not changed the schema or the
rows of the bookkeeping table, and it has sent only the existence check, the
creation of a missing bookkeeping table and the read of the installed version:
no `begin`, no migration SQL, no bookkeeping insert or delete. -/
theorem invalid_states_fatal_before_any_transaction {σ : Type} (D : Driver σ) (fs : FileSystem)
    (db db1 : Database σ) (st : MigrationState)
    (hst : GetLiveMigrationInfo D fs db = (.ok st, db1)) :
    (st.AvailableVersion < st.InstalledVersion →
      MigrateUp D fs db =
        (.error (.installedAhead st.InstalledVersion st.AvailableVersion), db1)) ∧
    (st.InstalledVersion = 0 → MigrateDown D fs db = (.error .nothingToRevert, db1)) ∧
    (st.InstalledVersion ≠ 0 → (∀ m ∈ st.Migrations, m.version ≠ st.InstalledVersion) →
      MigrateDown D fs db = (.error (.installedNotFound st.InstalledVersion), db1)) ∧
    db1.schema = db.schema ∧
    db1.migrations.getD [] = db.migrations.getD [] ∧
    ∃ sent, db1.trace = db.trace ++ sent ∧
      ∀ s ∈ sent, s = .checkTable ∨ s = .createTable ∨ s = .selectVersion := by
  obtain ⟨hinst, -, -⟩ := GetLiveMigrationInfo_spec D fs db db1 st hst
  obtain ⟨hs, -, ⟨pre, htr, hrec, -, -, -⟩, hok⟩ :=
    getInstalledMigrationVersion_spec D db db1 _ hinst
  obtain ⟨hrows, -⟩ := hok _ rfl
  refine ⟨?_, ?_, ?_, hs, by rw [hrows]; rfl, pre, htr, ?_⟩
  · intro h
    rw [MigrateUp_eq D fs db db1 st hst]
    unfold migrateUpFrom
    rw [if_neg (by omega), if_pos h]
  · intro h
    rw [MigrateDown_eq D fs db db1 st hst]
    unfold migrateDownFrom
    rw [if_pos h]
  · intro h hnone
    rw [MigrateDown_eq D fs db db1 st hst]
    unfold migrateDownFrom
    rw [if_neg h]
    have : st.Migrations.find? (fun m => decide (m.version = st.InstalledVersion)) = none := by
      rw [List.find?_eq_none]
      intro m hm
      simpa using hnone m hm
    rw [this]
  · intro s hs
    have := hrec s hs
    cases s <;> simp [Stmt.isReconcile] at this ⊢

/-- C5, witness: the three files on a database that records version 5:
`MigrateUp` ends in "installed (5) is higher than available (3)" and
`MigrateDown` in "failed to find installed migration 5"; on the empty
database `MigrateDown` ends in "no migrations to revert". -/
theorem invalid_states_fatal_before_any_transaction_witness :
    MigrateDown okDriver (fileSystemOf threeFiles) freshDb =
      (.error .nothingToRevert, freshDbReconciled) ∧
    GetLiveMigrationInfo okDriver (fileSystemOf threeFiles) aheadDb =
      (.ok (threeState 5), aheadDb.sent .checkTable |>.sent .selectVersion) ∧
    ((((threeState 5).AvailableVersion < (threeState 5).InstalledVersion →
      MigrateUp okDriver (fileSystemOf threeFiles) aheadDb =
        (.error (.installedAhead (threeState 5).InstalledVersion (threeState 5).AvailableVersion),
          aheadDb.sent .checkTable |>.sent .selectVersion)) ∧
    ((threeState 5).InstalledVersion = 0 →
      MigrateDown okDriver (fileSystemOf threeFiles) aheadDb =
        (.error .nothingToRevert, aheadDb.sent .checkTable |>.sent .selectVersion)) ∧
    ((threeState 5).InstalledVersion ≠ 0 →
      (∀ m ∈ (threeState 5).Migrations, m.version ≠ (threeState 5).InstalledVersion) →
      MigrateDown okDriver (fileSystemOf threeFiles) aheadDb =
        (.error (.installedNotFound (threeState 5).InstalledVersion),
          aheadDb.sent .checkTable |>.sent .selectVersion)) ∧
    (aheadDb.sent .checkTable |>.sent .selectVersion).schema = aheadDb.schema ∧
    (aheadDb.sent .checkTable |>.sent .selectVersion).migrations.getD [] =
      aheadDb.migrations.getD [] ∧
    ∃ sent, (aheadDb.sent .checkTable |>.sent .selectVersion).trace = aheadDb.trace ++ sent ∧
      ∀ s ∈ sent, s = .checkTable ∨ s = .createTable ∨ s = .selectVersion)) :=
  ⟨by decide, by decide,
    invalid_states_fatal_before_any_transaction okDriver (fileSystemOf threeFiles) aheadDb
      (aheadDb.sent .checkTable |>.sent .selectVersion) (threeState 5) (by decide)⟩

/-! ## C6 -/

theorem GetLiveMigrationInfo_ok_of_MigrateDown {σ : Type} (D : Driver σ) (fs : FileSystem)
    (db : Database σ) (hok : (MigrateDown D fs db).1.toBool = true) :
    ∃ st db1, GetLiveMigrationInfo D fs db = (.ok st, db1) := by
  unfold MigrateDown at hok
  cases h : GetLiveMigrationInfo D fs db with
  | mk r db1 =>
    rw [h] at hok
    cases r with
    | error e => simp [Except.toBool] at hok
    | ok st => exact ⟨st, db1, rfl⟩

/-- C6. When exactly one migration `N` is pending, `MigrateUp` ends without a
fatal error and the following `MigrateDown` on the resulting database ends
without a fatal error, then `MigrateUp` has added one row, for `N`, and after
`MigrateDown` the bookkeeping table holds the rows it held before
`MigrateUp`: the same rows in the same order, none for the version of `N`,
and the same installed version. -/
theorem up_then_down_restores_bookkeeping {σ : Type} (D : Driver σ) (fs : FileSystem)
    (db db1 : Database σ) (st : MigrationState) (N : migrationFileInfo)
    (hst : GetLiveMigrationInfo D fs db = (.ok st, db1))
    (hone : migrationsToApply st = [N])
    (hup : (MigrateUp D fs db).1.toBool = true)
    (hdown : (MigrateDown D fs (MigrateUp D fs db).2).1.toBool = true) :
    (∃ t, (MigrateUp D fs db).2.migrations =
      some (db.migrations.getD [] ++ [⟨N.version, t⟩])) ∧
    installedVersion (MigrateUp D fs db).2 = N.version ∧
    (MigrateDown D fs (MigrateUp D fs db).2).2.migrations = some (db.migrations.getD []) ∧
    (∀ r ∈ db.migrations.getD [], r.Version ≠ N.version) ∧
    installedVersion (MigrateDown D fs (MigrateUp D fs db).2).2 = installedVersion db := by
  have hrec := reconciled D fs db db1 st hst
  have hNmem := (mem_migrationsToApply st N).1 (by rw [hone]; simp)
  have hlt : st.InstalledVersion < st.AvailableVersion :=
    lt_of_lt_of_le hNmem.2 (hrec.le_available N hNmem.1)
  have hrowsle : ∀ r ∈ db.migrations.getD [], r.Version < N.version := by
    intro r hr
    have := le_installedVersion db _ rfl r hr
    rw [← hrec.installed] at this
    omega
  -- the up step
  rw [MigrateUp_eq D fs db db1 st hst] at hup hdown ⊢
  obtain ⟨filled, db2, hfill, happ, heq⟩ := migrateUpFrom_behind_ok D fs st db1 hlt hup
  rw [heq] at hdown ⊢
  simp only at hdown ⊢
  obtain ⟨ts, hlen, -, hmig, -⟩ := applyAllUp_ok D filled db1 db2 happ
  have hload := fillAll_ok fs _ filled hfill
  have hvers := LoadedFrom_versions fs _ filled hload
  rw [hone] at hvers
  obtain ⟨F, rfl⟩ : ∃ F, filled = [F] := by
    apply List.length_eq_one.1
    simpa using congrArg List.length hvers
  obtain ⟨t, rfl⟩ : ∃ t, ts = [t] := List.length_eq_one.1 (by simpa using hlen)
  have hFv : F.version = N.version := by simpa using hvers
  have hrows2 : db2.migrations = some (db.migrations.getD [] ++ [⟨N.version, t⟩]) := by
    rw [hmig, hrec.rows]; simp [upRows, hFv]
  have hsel2 : selectInstalledVersion (db.migrations.getD [] ++ [⟨N.version, t⟩]) =
      some N.version := by
    apply selectInstalledVersion_of
    · exact ⟨⟨N.version, t⟩, by simp, rfl⟩
    · intro r hr
      rcases List.mem_append.1 hr with h | h
      · exact le_of_lt (hrowsle r h)
      · rw [List.mem_singleton.1 h]
  have hinst2 : installedVersion db2 = N.version := by
    simp [installedVersion, hrows2, hsel2]
  -- the down step
  obtain ⟨st2, db3, hst2⟩ := GetLiveMigrationInfo_ok_of_MigrateDown D fs db2 hdown
  have hrec2 := reconciled D fs db2 db3 st2 hst2
  rw [MigrateDown_eq D fs db2 db3 st2 hst2] at hdown ⊢
  obtain ⟨-, m, filled2, rows3, s3, -, -, -, hrows3, -, heq2⟩ :=
    migrateDownFrom_ok D fs st2 db3 hdown
  rw [heq2]
  simp only
  have hst2v : st2.InstalledVersion = N.version := by rw [hrec2.installed, hinst2]
  have hrows3' : rows3 = db.migrations.getD [] ++ [⟨N.version, t⟩] := by
    have := hrec2.rows
    rw [hrows3, hrows2] at this
    simpa using this
  have hfilter : (rows3.filter fun r => decide (r.Version ≠ st2.InstalledVersion)) =
      db.migrations.getD [] := by
    rw [hrows3', hst2v, List.filter_append]
    have h1 : (db.migrations.getD []).filter (fun r => decide (r.Version ≠ N.version)) =
        db.migrations.getD [] := by
      rw [List.filter_eq_self]
      intro r hr
      have := hrowsle r hr
      simp only [ne_eq, decide_not, Bool.not_eq_true', decide_eq_false_iff_not]
      omega
    rw [h1]
    simp
  refine ⟨⟨t, hrows2⟩, hinst2, by rw [hfilter], ?_, ?_⟩
  · intro r hr
    have := hrowsle r hr
    omega
  · simp only [installedVersion, Option.getD_some, hfilter]

/-- C6, witness: on an empty bookkeeping table and one file of version 100,
`MigrateUp` records version 100, which is then the installed version, and
`MigrateDown` leaves the table without a row, hence without an installed
version. -/
theorem up_then_down_restores_bookkeeping_witness :
    (MigrateUp okDriver (fileSystemOf fileHundred) emptyTableDb).2.migrations =
      some [⟨100, 4⟩] ∧
    selectInstalledVersion [⟨100, 4⟩] = some 100 ∧
    (MigrateDown okDriver (fileSystemOf fileHundred)
      (MigrateUp okDriver (fileSystemOf fileHundred) emptyTableDb).2).2.migrations = some [] ∧
    selectInstalledVersion [] = none ∧
    ((∃ t, (MigrateUp okDriver (fileSystemOf fileHundred) emptyTableDb).2.migrations =
      some (emptyTableDb.migrations.getD [] ++ [⟨100, t⟩])) ∧
    installedVersion (MigrateUp okDriver (fileSystemOf fileHundred) emptyTableDb).2 = 100 ∧
    (MigrateDown okDriver (fileSystemOf fileHundred)
      (MigrateUp okDriver (fileSystemOf fileHundred) emptyTableDb).2).2.migrations =
        some (emptyTableDb.migrations.getD []) ∧
    (∀ r ∈ emptyTableDb.migrations.getD [], r.Version ≠ 100) ∧
    installedVersion (MigrateDown okDriver (fileSystemOf fileHundred)
      (MigrateUp okDriver (fileSystemOf fileHundred) emptyTableDb).2).2 =
        installedVersion emptyTableDb) :=
  ⟨by decide, by decide, by decide, by decide,
    up_then_down_restores_bookkeeping okDriver (fileSystemOf fileHundred) emptyTableDb
      (emptyTableDb.sent .checkTable |>.sent .selectVersion)
      ⟨100, 0, [⟨100, "migrations/0100_test.sql".toList, none⟩]⟩
      ⟨100, "migrations/0100_test.sql".toList, none⟩
      (by decide) (by decide) (by decide) (by decide)⟩

/-! ## C7 -/

theorem migrationFiles_perm (entries entries2 : List DirEntry) (h : entries2.Perm entries) :
    (migrationFiles entries2).Perm (migrationFiles entries) :=
  (h.filter _).map _

theorem eq_of_perm_of_versions_sorted (l1 l2 : List migrationFileInfo) (hp : l1.Perm l2)
    (h1 : (l1.map (·.version)).Sorted (· < ·)) (h2 : (l2.map (·.version)).Sorted (· < ·)) :
    l1 = l2 := by
  haveI : IsAntisymm migrationFileInfo (fun a b => a.version < b.version) :=
    ⟨fun a b hab hba => absurd hab (Nat.lt_asymm hba)⟩
  rw [List.Sorted, List.pairwise_map] at h1 h2
  exact List.eq_of_perm_of_sorted hp h1 h2

/-- C7. When the candidate files of a walk have pairwise distinct versions,
the scanner returns a list that holds each candidate exactly once (it is a
permutation of the candidates and has no repetition) and whose versions are
strictly ascending; every other order of the same walk, with any file
contents, gives the same list. -/
theorem scanner_ascending_each_candidate_once (entries : List DirEntry)
    (rf : List Char → Option (List Char))
    (hnd : ((candidates entries).map (·.version)).Nodup) :
    ∃ ms, ListAvailableMigrations ⟨some entries, rf⟩ = .ok ms ∧
      ms.Perm (candidates entries) ∧ ms.Nodup ∧
      (ms.map (·.version)).Sorted (· < ·) ∧
      ∀ (entries2 : List DirEntry) (rf2 : List Char → Option (List Char)),
        entries2.Perm entries → ListAvailableMigrations ⟨some entries2, rf2⟩ = .ok ms := by
  obtain ⟨ms, hms, hperm, -⟩ := ListAvailableMigrations_ok entries rf hnd
  have hsorted := ListAvailableMigrations_sorted _ ms hms
  refine ⟨ms, hms, hperm, List.Nodup.of_map _ hsorted.nodup, hsorted, ?_⟩
  intro entries2 rf2 hp
  have hcp : (candidates entries2).Perm (candidates entries) := (migrationFiles_perm _ _ hp).map _
  have hnd2 : ((candidates entries2).map (·.version)).Nodup := (hcp.map _).nodup_iff.2 hnd
  obtain ⟨ms2, hms2, hperm2, -⟩ := ListAvailableMigrations_ok entries2 rf2 hnd2
  have hsorted2 := ListAvailableMigrations_sorted _ ms2 hms2
  rw [hms2, eq_of_perm_of_versions_sorted ms2 ms ((hperm2.trans hcp).trans hperm.symm)
    hsorted2 hsorted]

/-- C7, witness: the walk that visits the files in the order 3, 1, 2 gives
the list 1, 2, 3. -/
theorem scanner_ascending_each_candidate_once_witness :
    ListAvailableMigrations ⟨some shuffledWalk, fun _ => none⟩ = .ok (threeState 0).Migrations ∧
    ((candidates shuffledWalk).map (·.version)).Nodup ∧
    ∃ ms, ListAvailableMigrations ⟨some shuffledWalk, fun _ => none⟩ = .ok ms ∧
      ms.Perm (candidates shuffledWalk) ∧ ms.Nodup ∧
      (ms.map (·.version)).Sorted (· < ·) ∧
      ∀ (entries2 : List DirEntry) (rf2 : List Char → Option (List Char)),
        entries2.Perm shuffledWalk → ListAvailableMigrations ⟨some entries2, rf2⟩ = .ok ms :=
  ⟨by decide, by decide,
    scanner_ascending_each_candidate_once shuffledWalk (fun _ => none) (by decide)⟩

/-! ## C8 -/

/-- C8. On a walk that succeeds, discovery ends in the fatal error "Duplicate
migration version" exactly when two candidate files have the same version; the
result is then that error and no list. When the versions are distinct the
result is a list. -/
theorem duplicate_version_fatal_iff (entries : List DirEntry)
    (rf : List Char → Option (List Char)) :
    ((∃ v, ListAvailableMigrations ⟨some entries, rf⟩ = .error (.duplicateVersion v)) ↔
      ¬ ((candidates entries).map (·.version)).Nodup) ∧
    ((∃ ms, ListAvailableMigrations ⟨some entries, rf⟩ = .ok ms) ↔
      ((candidates entries).map (·.version)).Nodup) := by
  by_cases hnd : ((candidates entries).map (·.version)).Nodup
  · obtain ⟨ms, hms, -, -⟩ := ListAvailableMigrations_ok entries rf hnd
    constructor
    · constructor
      · rintro ⟨v, hv⟩
        rw [hms] at hv
        cases hv
      · intro h; exact absurd hnd h
    · exact ⟨fun _ => hnd, fun _ => ⟨ms, hms⟩⟩
  · have hnd2 := hnd
    rw [candidates_versions] at hnd2
    obtain ⟨v, hv⟩ := (collectVersions_spec (migrationFiles entries) [] []
      (migrationFiles_match entries) (by simp)).2 (fun hh => hnd2 hh.1)
    have herr : ListAvailableMigrations ⟨some entries, rf⟩ = .error (.duplicateVersion v) := by
      simp only [ListAvailableMigrations, hv]
    constructor
    · exact ⟨fun _ => hnd, fun _ => ⟨v, herr⟩⟩
    · constructor
      · rintro ⟨ms, hms⟩
        rw [herr] at hms
        cases hms
      · intro h; exact absurd h hnd

/-! ## Which place of the path the pattern takes -/

theorem fourDigitShapeAt_iff (pre path : List Char) (d1 d2 d3 d4 : Char) :
    FourDigitShapeAt pre path d1 d2 d3 d4 ↔
      ∃ c rest, path = pre ++ c :: rest ∧ c ≠ '\n' ∧ sepVersionAt rest = some [d1, d2, d3, d4] := by
  constructor
  · rintro ⟨c, s, name, rest, rfl, hc, hs, h1, h2, h3, h4, hne, hns⟩
    exact ⟨c, _, rfl, hc,
      sepVersionAt_of s d1 d2 d3 d4 _ hs h1 h2 h3 h4 (nameSqlAt_append name rest hne hns)⟩
  · rintro ⟨c, rest, rfl, hc, hr⟩
    obtain ⟨s, e1, e2, e3, e4, t, rfl, hg, hs, h1, h2, h3, h4, ht⟩ := sepVersionAt_some rest _ hr
    simp only [List.cons.injEq, and_true] at hg
    obtain ⟨rfl, rfl, rfl, rfl⟩ := hg
    obtain ⟨name, rest2, rfl, hne, hns⟩ := nameSqlAt_split t ht
    exact ⟨c, s, name, rest2, rfl, hc, hs, h1, h2, h3, h4, hne, hns⟩

theorem fourDigitShape_iff_at (path : List Char) (d1 d2 d3 d4 : Char) :
    FourDigitShape path d1 d2 d3 d4 ↔ ∃ pre, FourDigitShapeAt pre path d1 d2 d3 d4 := by
  constructor
  · rintro ⟨pre, c, s, name, rest, h⟩
    exact ⟨pre, c, s, name, rest, h⟩
  · rintro ⟨pre, c, s, name, rest, h⟩
    exact ⟨pre, c, s, name, rest, h⟩

/-- On an input without newline, the pattern matches at the head as soon as
its part after `.+` matches at some later place. -/
theorem migrationRxAt_isSome_of_place (pre : List Char) (c : Char) (rest : List Char)
    (hpre : ∀ x ∈ pre, x ≠ '\n') (hc : c ≠ '\n') (h : (sepVersionAt rest).isSome = true) :
    (migrationRxAt (pre ++ c :: rest)).isSome = true := by
  induction pre with
  | nil => exact migrationRxAt_isSome_of c rest hc h
  | cons p pre ih =>
    have hp : (p == '\n') = false := beq_false_of_ne (hpre p (by simp))
    have := ih (fun x hx => hpre x (by simp [hx]))
    obtain ⟨g, hg⟩ := Option.isSome_iff_exists.1 this
    simp [migrationRxAt, hp, hg]

/-- The place the greedy `.+` takes is the last one at which the rest of the
pattern matches. -/
theorem migrationRxAt_last (t g : List Char) (hnl : ∀ x ∈ t, x ≠ '\n')
    (h : migrationRxAt t = some g) :
    ∃ pre c rest, t = pre ++ c :: rest ∧ sepVersionAt rest = some g ∧
      ∀ pre2 c2 rest2, t = pre2 ++ c2 :: rest2 → (sepVersionAt rest2).isSome = true →
        pre2.length ≤ pre.length := by
  induction t with
  | nil => simp [migrationRxAt] at h
  | cons c t ih =>
    have hnl2 : ∀ x ∈ t, x ≠ '\n' := fun x hx => hnl x (by simp [hx])
    simp only [migrationRxAt] at h
    rw [if_neg (by simpa using hnl c (by simp))] at h
    cases hm : migrationRxAt t with
    | some g2 =>
      rw [hm] at h
      simp only [Option.some.injEq] at h
      subst h
      obtain ⟨pre, c1, rest, rfl, hr, hlast⟩ := ih hnl2 hm
      refine ⟨c :: pre, c1, rest, rfl, hr, ?_⟩
      intro pre2 c2 rest2 heq hv
      cases pre2 with
      | nil => simp
      | cons p pre2 =>
        simp only [List.cons_append, List.cons.injEq] at heq
        simpa using hlast pre2 c2 rest2 heq.2 hv
    | none =>
      rw [hm] at h
      simp only at h
      refine ⟨[], c, t, rfl, h, ?_⟩
      intro pre2 c2 rest2 heq hv
      cases pre2 with
      | nil => simp
      | cons p pre2 =>
        simp only [List.cons_append, List.cons.injEq] at heq
        have hsome := migrationRxAt_isSome_of_place pre2 c2 rest2
          (fun x hx => hnl2 x (by rw [heq.2]; simp [hx]))
          (hnl2 c2 (by rw [heq.2]; simp)) hv
        rw [← heq.2, hm] at hsome
        simp at hsome

theorem FindStringSubmatch_eq_migrationRxAt (t : List Char) (hnl : ∀ x ∈ t, x ≠ '\n') :
    FindStringSubmatch t = migrationRxAt t := by
  induction t with
  | nil => rfl
  | cons c t ih =>
    have hnl2 : ∀ x ∈ t, x ≠ '\n' := fun x hx => hnl x (by simp [hx])
    simp only [FindStringSubmatch]
    cases hm : migrationRxAt (c :: t) with
    | some g => rfl
    | none =>
      simp only
      rw [ih hnl2]
      simp only [migrationRxAt] at hm
      rw [if_neg (by simpa using hnl c (by simp))] at hm
      cases hm2 : migrationRxAt t with
      | none => rfl
      | some g => rw [hm2] at hm; cases hm

/-- On a path without newline the capture group is the four digits at the
last place of the path that has the four-digit shape. -/
theorem FindStringSubmatch_last_place (path g : List Char) (hnl : ∀ x ∈ path, x ≠ '\n') :
    FindStringSubmatch path = some g ↔
      ∃ pre d1 d2 d3 d4, g = [d1, d2, d3, d4] ∧ FourDigitShapeAt pre path d1 d2 d3 d4 ∧
        ∀ pre2 e1 e2 e3 e4, FourDigitShapeAt pre2 path e1 e2 e3 e4 →
          pre2.length ≤ pre.length := by
  have hfwd : ∀ g2, FindStringSubmatch path = some g2 →
      ∃ pre d1 d2 d3 d4, g2 = [d1, d2, d3, d4] ∧ FourDigitShapeAt pre path d1 d2 d3 d4 ∧
        ∀ pre2 e1 e2 e3 e4, FourDigitShapeAt pre2 path e1 e2 e3 e4 →
          pre2.length ≤ pre.length := by
    intro g2 h
    rw [FindStringSubmatch_eq_migrationRxAt path hnl] at h
    obtain ⟨pre, c, rest, hp, hr, hlast⟩ := migrationRxAt_last path g2 hnl h
    obtain ⟨s, d1, d2, d3, d4, t, -, hg, -⟩ := sepVersionAt_some rest g2 hr
    subst hg
    refine ⟨pre, d1, d2, d3, d4, rfl,
      (fourDigitShapeAt_iff pre path d1 d2 d3 d4).2
        ⟨c, rest, hp, hnl c (by rw [hp]; simp), hr⟩, ?_⟩
    intro pre2 e1 e2 e3 e4 hshape
    obtain ⟨c2, rest2, hp2, -, hr2⟩ := (fourDigitShapeAt_iff pre2 path e1 e2 e3 e4).1 hshape
    exact hlast pre2 c2 rest2 hp2 (by rw [hr2]; rfl)
  constructor
  · exact hfwd g
  · rintro ⟨pre, d1, d2, d3, d4, rfl, hshape, hlast⟩
    obtain ⟨c, rest, hp, hc, hr⟩ := (fourDigitShapeAt_iff pre path d1 d2 d3 d4).1 hshape
    have hsome : (FindStringSubmatch path).isSome = true := by
      rw [hp]
      exact FindStringSubmatch_isSome_of pre c rest hc (by rw [hr]; rfl)
    obtain ⟨g2, hg2⟩ := Option.isSome_iff_exists.1 hsome
    obtain ⟨pre2, e1, e2, e3, e4, rfl, hshape2, hlast2⟩ := hfwd g2 hg2
    obtain ⟨c2, rest2, hp2, -, hr2⟩ := (fourDigitShapeAt_iff pre2 path e1 e2 e3 e4).1 hshape2
    have hlen : pre.length = pre2.length :=
      le_antisymm (hlast2 pre d1 d2 d3 d4 hshape) (hlast pre2 e1 e2 e3 e4 hshape2)
    have heq : pre ++ c :: rest = pre2 ++ c2 :: rest2 := by rw [← hp, ← hp2]
    obtain ⟨-, htail⟩ := List.append_inj heq hlen
    simp only [List.cons.injEq] at htail
    rw [htail.2, hr2] at hr
    rw [hg2, hr]

/-! ## C9 -/

/-- C9 as stated fails: a file name of five digits, `_`, a name and `.sql`
in a directory is not matched by the pattern, and the scanner returns no
entry for it. -/
theorem five_digit_version_not_discovered :
    FindStringSubmatch "migrations/12345_add.sql".toList = none ∧
    ListAvailableMigrations
      ⟨some [⟨"migrations".toList, true⟩, ⟨"migrations/12345_add.sql".toList, false⟩],
        fun _ => some "-- +up\n-- +down\n".toList⟩ = .ok [] := by
  decide

theorem fourDigitShape_of_sepVersionAt (pre : List Char) (c : Char) (rest g : List Char)
    (hc : c ≠ '\n') (h : sepVersionAt rest = some g) :
    ∃ d1 d2 d3 d4, g = [d1, d2, d3, d4] ∧ FourDigitShape (pre ++ c :: rest) d1 d2 d3 d4 := by
  obtain ⟨s, d1, d2, d3, d4, t, rfl, rfl, hs, h1, h2, h3, h4, ht⟩ := sepVersionAt_some rest g h
  obtain ⟨name, rest2, rfl, hne, hns⟩ := nameSqlAt_split t ht
  exact ⟨d1, d2, d3, d4, rfl, pre, c, s, name, rest2, rfl, hc, hs, h1, h2, h3, h4, hne, hns⟩

/-- C9, amended. A path is matched by the scanner's pattern exactly when it
has the four-digit shape: a character other than a newline, a separator,
exactly four digits directly followed by `_`, a non-empty name without white
space, and `.sql`. The version read from a matched path is the value of four
digits at such a place; for a path without a newline character it is the one
at the last such place of the path, and no other. The scanner, when it
succeeds, returns exactly the records of the entries that are not directories
and whose path is matched. -/
theorem candidate_iff_four_digit_shape (path : List Char) :
    ((FindStringSubmatch path).isSome = true ↔ ∃ d1 d2 d3 d4, FourDigitShape path d1 d2 d3 d4) ∧
    (∀ g, FindStringSubmatch path = some g →
      ∃ d1 d2 d3 d4, g = [d1, d2, d3, d4] ∧ FourDigitShape path d1 d2 d3 d4 ∧
        versionOf path =
          some (1000 * digitValue d1 + 100 * digitValue d2 + 10 * digitValue d3 + digitValue d4)) ∧
    ((∀ x ∈ path, x ≠ '\n') → ∀ g, (FindStringSubmatch path = some g ↔
      ∃ pre d1 d2 d3 d4, g = [d1, d2, d3, d4] ∧ FourDigitShapeAt pre path d1 d2 d3 d4 ∧
        ∀ pre2 e1 e2 e3 e4, FourDigitShapeAt pre2 path e1 e2 e3 e4 →
          pre2.length ≤ pre.length)) ∧
    (∀ (entries : List DirEntry) (rf : List Char → Option (List Char)) (ms : List migrationFileInfo),
      ListAvailableMigrations ⟨some entries, rf⟩ = .ok ms →
      ∀ m, m ∈ ms ↔ ∃ d ∈ entries, d.isDir = false ∧ (FindStringSubmatch d.path).isSome = true ∧
        m = ⟨(versionOf d.path).getD 0, d.path, none⟩) := by
  have hfwd : ∀ g, FindStringSubmatch path = some g →
      ∃ d1 d2 d3 d4, g = [d1, d2, d3, d4] ∧ FourDigitShape path d1 d2 d3 d4 := by
    intro g hg
    obtain ⟨pre, c, rest, rfl, hc, hr⟩ := FindStringSubmatch_some path g hg
    exact fourDigitShape_of_sepVersionAt pre c rest g hc hr
  refine ⟨⟨?_, ?_⟩, ?_, fun hnl g => FindStringSubmatch_last_place path g hnl, ?_⟩
  · intro h
    obtain ⟨g, hg⟩ := Option.isSome_iff_exists.1 h
    obtain ⟨d1, d2, d3, d4, -, hshape⟩ := hfwd g hg
    exact ⟨d1, d2, d3, d4, hshape⟩
  · rintro ⟨d1, d2, d3, d4, pre, c, s, name, rest, rfl, hc, hs, h1, h2, h3, h4, hne, hns⟩
    apply FindStringSubmatch_isSome_of pre c _ hc
    rw [sepVersionAt_of s d1 d2 d3 d4 _ hs h1 h2 h3 h4 (nameSqlAt_append name rest hne hns)]
    rfl
  · intro g hg
    obtain ⟨d1, d2, d3, d4, rfl, hshape⟩ := hfwd g hg
    refine ⟨d1, d2, d3, d4, rfl, hshape, ?_⟩
    obtain ⟨pre, c, s, name, rest, -, -, -, h1, h2, h3, h4, -, -⟩ := hshape
    simp only [versionOf, hg, Option.bind_some]
    exact Atoi_four_digits d1 d2 d3 d4 h1 h2 h3 h4
  · intro entries rf ms hms m
    have hnd : ((candidates entries).map (·.version)).Nodup := by
      by_contra hnd
      rw [candidates_versions] at hnd
      obtain ⟨v, hv⟩ := (collectVersions_spec (migrationFiles entries) [] []
        (migrationFiles_match entries) (by simp)).2 (fun hh => hnd hh.1)
      simp [ListAvailableMigrations, hv] at hms
    obtain ⟨ms2, hms2, hperm, -⟩ := ListAvailableMigrations_ok entries rf hnd
    rw [hms] at hms2
    cases hms2
    rw [hperm.mem_iff]
    simp only [candidates, migrationFiles, List.mem_map, List.mem_filter, Bool.and_eq_true,
      Bool.not_eq_true', recOf, ver]
    constructor
    · rintro ⟨f, ⟨d, ⟨hd, hdir, hmatch⟩, rfl⟩, rfl⟩
      exact ⟨d, hd, hdir, hmatch, rfl⟩
    · rintro ⟨d, hd, hdir, hmatch, rfl⟩
      exact ⟨d.path, ⟨d, ⟨hd, hdir, hmatch⟩, rfl⟩, rfl⟩

/-- C9, amended, witness: `migrations/0001_init.sql` is matched, its version
is 1, and the scanner returns its record; in `migrations/0007_old/0012_add.sql`
the shape occurs at two places and the version is 12, the one at the last
place; `migrations/0007_old/12345_add.sql` is a candidate of version 7, the
shape being at the directory name. -/
theorem candidate_iff_four_digit_shape_witness :
    FindStringSubmatch "migrations/0001_init.sql".toList = some ['0', '0', '0', '1'] ∧
    (∃ d1 d2 d3 d4, ['0', '0', '0', '1'] = [d1, d2, d3, d4] ∧
      FourDigitShape "migrations/0001_init.sql".toList d1 d2 d3 d4 ∧
      versionOf "migrations/0001_init.sql".toList =
        some (1000 * digitValue d1 + 100 * digitValue d2 + 10 * digitValue d3 + digitValue d4)) ∧
    versionOf "migrations/0001_init.sql".toList = some 1 ∧
    versionOf "migrations/0007_old/0012_add.sql".toList = some 12 ∧
    versionOf "migrations/0007_old/12345_add.sql".toList = some 7 ∧
    (∃ pre d1 d2 d3 d4, ['0', '0', '1', '2'] = [d1, d2, d3, d4] ∧
      FourDigitShapeAt pre "migrations/0007_old/0012_add.sql".toList d1 d2 d3 d4 ∧
      ∀ pre2 e1 e2 e3 e4,
        FourDigitShapeAt pre2 "migrations/0007_old/0012_add.sql".toList e1 e2 e3 e4 →
        pre2.length ≤ pre.length) ∧
    ListAvailableMigrations ⟨some [⟨"migrations/0001_init.sql".toList, false⟩], fun _ => none⟩ =
      .ok [⟨1, "migrations/0001_init.sql".toList, none⟩] ∧
    (∀ m, m ∈ [(⟨1, "migrations/0001_init.sql".toList, none⟩ : migrationFileInfo)] ↔
      ∃ d ∈ [(⟨"migrations/0001_init.sql".toList, false⟩ : DirEntry)],
        d.isDir = false ∧ (FindStringSubmatch d.path).isSome = true ∧
        m = ⟨(versionOf d.path).getD 0, d.path, none⟩) :=
  ⟨by decide,
    (candidate_iff_four_digit_shape "migrations/0001_init.sql".toList).2.1 _ (by decide),
    by decide, by decide, by decide,
    ((candidate_iff_four_digit_shape "migrations/0007_old/0012_add.sql".toList).2.2.1
      (by decide) ['0', '0', '1', '2']).1 (by decide),
    by decide,
    (candidate_iff_four_digit_shape "migrations/0001_init.sql".toList).2.2.2
      [⟨"migrations/0001_init.sql".toList, false⟩] (fun _ => none) _ (by decide)⟩

/-! ## C10 -/

theorem rawLines_line (l rest : List Char) (hl : ∀ c ∈ l, c ≠ '\n') :
    rawLines (l ++ '\n' :: rest) = l :: rawLines rest := by
  induction l with
  | nil => simp [rawLines]
  | cons c l ih =>
    have hc : (c == '\n') = false := beq_false_of_ne (hl c (by simp))
    have := ih (fun x hx => hl x (by simp [hx]))
    rw [List.cons_append, rawLines, hc, this]
    rfl

theorem rawLines_unlines (ls : List (List Char)) (h : ∀ l ∈ ls, ∀ c ∈ l, c ≠ '\n') :
    rawLines (unlines ls) = ls := by
  induction ls with
  | nil => rfl
  | cons l ls ih =>
    rw [unlines, rawLines_line l _ (h l (by simp)), ih (fun x hx => h x (by simp [hx]))]

theorem byteLen_replicate_x (n : Nat) : byteLen (List.replicate n 'x') = n := by
  induction n with
  | zero => rfl
  | succ n ih =>
    rw [List.replicate_succ, byteLen, ih]
    have : 'x'.utf8Size = 1 := by decide
    omega

theorem dropCR_of_no_cr (l : List Char) (h : ∀ c ∈ l, c ≠ '\r') : dropCR l = l := by
  unfold dropCR
  split
  · rename_i hlast
    obtain ⟨ys, hys⟩ := List.getLast?_eq_some_iff.1 hlast
    exact absurd rfl (h '\r' (by rw [hys]; simp))
  · rfl

theorem markerMatch_replicate_x (word : List Char) (n : Nat) :
    markerMatch word (List.replicate n 'x') = false := by
  induction n with
  | zero => simp [markerMatch, markerAt]
  | succ n ih =>
    rw [List.replicate_succ, markerMatch, ih]
    cases n with
    | zero => simp [markerAt]
    | succ k =>
      rw [List.replicate_succ, markerAt]
      have : ('x' == '-') = false := by decide
      simp [this]

theorem rawLines_longLineText :
    rawLines longLineText =
      ["-- +up".toList, "U;".toList, "-- +down".toList, "D;".toList,
        List.replicate 65536 'x', "-- +up".toList, "V;".toList] := by
  apply rawLines_unlines
  intro l hl c hc
  simp only [List.mem_cons, List.mem_singleton, List.not_mem_nil, or_false] at hl
  rcases hl with rfl | rfl | rfl | rfl | rfl | rfl | rfl
  · revert c; decide
  · revert c; decide
  · revert c; decide
  · revert c; decide
  · rw [List.eq_of_mem_replicate hc]; decide
  · revert c; decide
  · revert c; decide

theorem scanLines_longLineText :
    scanLines longLineText =
      ["-- +up".toList, "U;".toList, "-- +down".toList, "D;".toList] := by
  have hbig : fitsBuffer (List.replicate 65536 'x') = false := by
    simp only [fitsBuffer, byteLen_replicate_x, MaxScanTokenSize]
    decide
  have h1 : fitsBuffer "-- +up".toList = true := by decide
  have h2 : fitsBuffer "U;".toList = true := by decide
  have h3 : fitsBuffer "-- +down".toList = true := by decide
  have h4 : fitsBuffer "D;".toList = true := by decide
  rw [scanLines, rawLines_longLineText]
  simp only [List.takeWhile_cons, h1, h2, h3, h4, hbig, if_true, Bool.false_eq_true, if_false]
  decide

/-- C10 fails on the code: in `longLineText` the forward marker occurs on two
lines, yet the parser succeeds and returns the first up section: the line of
65536 characters between the down section and the second marker does not fit
the scanner's buffer, the loop ends there, and the second marker is never
read. -/
theorem long_line_hides_second_marker :
    parseContents 1 longLineText = .ok ⟨"U;\n".toList, "D;\n".toList⟩ ∧
    (textLines longLineText).countP upRx = 2 ∧
    (textLines longLineText).countP isDownLine = 1 := by
  have hx : dropCR (List.replicate 65536 'x') = List.replicate 65536 'x' := by
    apply dropCR_of_no_cr
    intro c hc
    rw [List.eq_of_mem_replicate hc]; decide
  have hup : upRx (List.replicate 65536 'x') = false := markerMatch_replicate_x _ _
  have hdown : isDownLine (List.replicate 65536 'x') = false := by
    simp only [isDownLine, downRx, markerMatch_replicate_x, Bool.and_false]
  refine ⟨?_, ?_, ?_⟩
  · rw [parseContents, scanLines_longLineText]
    decide
  · rw [textLines, rawLines_longLineText]
    simp only [List.map_cons, List.map_nil, hx, List.countP_cons, List.countP_nil, hup]
    decide
  · rw [textLines, rawLines_longLineText]
    simp only [List.map_cons, List.map_nil, hx, List.countP_cons, List.countP_nil, hdown]
    decide

/-- One iteration succeeds unless it meets a marker that was already found;
it raises the flag of the marker it meets. -/
theorem fillStep_spec (version : Nat) (st : fillState) (line : List Char) :
    ((∃ st1, fillStep version st line = .ok st1) ↔
      (st.foundUp.toNat + (upRx line).toNat ≤ 1 ∧
        st.foundDown.toNat + (isDownLine line).toNat ≤ 1)) ∧
    (∀ st1, fillStep version st line = .ok st1 →
      st1.foundUp.toNat = st.foundUp.toNat + (upRx line).toNat ∧
      st1.foundDown.toNat = st.foundDown.toNat + (isDownLine line).toNat) := by
  unfold fillStep isDownLine
  cases hu : upRx line <;> cases hd : downRx line <;> cases hfu : st.foundUp <;>
    cases hfd : st.foundDown <;>
    simp only [Bool.false_eq_true, if_false, if_true, Bool.not_false, Bool.not_true,
      Bool.and_true, Bool.and_false, Bool.toNat_false, Bool.toNat_true, Bool.and_self] <;>
    (try split) <;> (try split) <;>
    (refine ⟨⟨fun h => ?_, fun h => ?_⟩, fun st1 h => ?_⟩) <;>
    first
      | omega
      | exact ⟨_, rfl⟩
      | (obtain ⟨st1, h⟩ := h; exact Except.noConfusion h)
      | exact Except.noConfusion h
      | (cases h; simp [hfu, hfd])

theorem countP_cons_toNat (p : List Char → Bool) (line : List Char) (rest : List (List Char)) :
    (line :: rest).countP p = (p line).toNat + rest.countP p := by
  rw [List.countP_cons]
  cases p line <;> simp [Nat.add_comm]

/-- The loop succeeds exactly when, counting a marker already found, each
marker occurs at most once among the lines; the flags then tell whether each
marker occurred. -/
theorem fillLoop_ok_iff (version : Nat) (lines : List (List Char)) :
    ∀ st : fillState,
      ((∃ st1, fillLoop version st lines = .ok st1) ↔
        (st.foundUp.toNat + lines.countP upRx ≤ 1 ∧
          st.foundDown.toNat + lines.countP isDownLine ≤ 1)) ∧
      (∀ st1, fillLoop version st lines = .ok st1 →
        st1.foundUp.toNat = st.foundUp.toNat + lines.countP upRx ∧
        st1.foundDown.toNat = st.foundDown.toNat + lines.countP isDownLine) := by
  induction lines with
  | nil =>
    intro st
    refine ⟨⟨fun _ => ?_, fun _ => ⟨st, rfl⟩⟩, ?_⟩
    · cases st.foundUp <;> cases st.foundDown <;> simp
    · intro st1 h
      simp only [fillLoop] at h
      cases h
      simp
  | cons line rest ih =>
    intro st
    obtain ⟨hstep, hflags⟩ := fillStep_spec version st line
    rw [countP_cons_toNat, countP_cons_toNat]
    simp only [fillLoop]
    cases hs : fillStep version st line with
    | error e =>
      have hno : ¬ (st.foundUp.toNat + (upRx line).toNat ≤ 1 ∧
          st.foundDown.toNat + (isDownLine line).toNat ≤ 1) := by
        intro h
        obtain ⟨st1, h1⟩ := hstep.2 h
        rw [hs] at h1
        cases h1
      refine ⟨⟨fun h => ?_, fun h => ?_⟩, fun st1 h => ?_⟩
      · obtain ⟨st1, h⟩ := h
        cases h
      · exact absurd ⟨by omega, by omega⟩ hno
      · cases h
    | ok st2 =>
      obtain ⟨h1, h2⟩ := hflags st2 hs
      obtain ⟨ihiff, ihflags⟩ := ih st2
      simp only
      refine ⟨?_, fun st1 h => ?_⟩
      · rw [ihiff, h1, h2]
        omega
      · obtain ⟨h3, h4⟩ := ihflags st1 h
        omega

/-- The parser succeeds exactly when the lines the scanner delivers hold one
forward marker line and one backward marker line. -/
theorem parseContents_ok_iff (version : Nat) (text : List Char) :
    (∃ c, parseContents version text = .ok c) ↔
      ((scanLines text).countP upRx = 1 ∧ (scanLines text).countP isDownLine = 1) := by
  obtain ⟨hiff, hflags⟩ := fillLoop_ok_iff version (scanLines text) fillState.init
  unfold parseContents
  cases hl : fillLoop version fillState.init (scanLines text) with
  | error e =>
    have hno : ¬ (fillState.init.foundUp.toNat + (scanLines text).countP upRx ≤ 1 ∧
        fillState.init.foundDown.toNat + (scanLines text).countP isDownLine ≤ 1) := by
      intro h
      obtain ⟨st1, h1⟩ := hiff.2 h
      rw [hl] at h1
      cases h1
    simp only [fillState.init, Bool.toNat_false, Nat.zero_add] at hno
    constructor
    · rintro ⟨c, hc⟩
      cases hc
    · intro h
      exact absurd ⟨by omega, by omega⟩ hno
  | ok st =>
    obtain ⟨h1, h2⟩ := hflags st hl
    simp only [fillState.init, Bool.toNat_false, Nat.zero_add] at h1 h2
    have hle := hiff.1 ⟨st, hl⟩
    simp only [fillState.init, Bool.toNat_false, Nat.zero_add] at hle
    simp only
    cases hfu : st.foundUp <;> cases hfd : st.foundDown <;>
      simp only [hfu, hfd, Bool.toNat_false, Bool.toNat_true] at h1 h2 <;>
      simp only [Bool.not_false, Bool.not_true, if_true, if_false, Bool.false_eq_true]
    · constructor
      · rintro ⟨c, hc⟩; cases hc
      · intro h; omega
    · constructor
      · rintro ⟨c, hc⟩; cases hc
      · intro h; omega
    · constructor
      · rintro ⟨c, hc⟩; cases hc
      · intro h; omega
    · exact ⟨fun _ => ⟨h1.symm, h2.symm⟩, fun _ => ⟨_, rfl⟩⟩

/-- When every line of the text fits the scanner's buffer, the scanner
delivers all the lines of the text, and the parser succeeds exactly when the
text holds one forward marker line and one backward marker line. -/
theorem parseContents_ok_iff_of_lines_fit (version : Nat) (text : List Char)
    (hfit : ∀ l ∈ rawLines text, byteLen l < MaxScanTokenSize) :
    (∃ c, parseContents version text = .ok c) ↔
      ((textLines text).countP upRx = 1 ∧ (textLines text).countP isDownLine = 1) := by
  have : scanLines text = textLines text := by
    unfold scanLines textLines
    rw [List.takeWhile_eq_self_iff.2]
    intro l hl
    simpa [fitsBuffer] using hfit l hl
  rw [parseContents_ok_iff, this]

/-! ## C11 -/

theorem unlines_append (a b : List (List Char)) : unlines (a ++ b) = unlines a ++ unlines b := by
  induction a with
  | nil => rfl
  | cons l a ih => simp [unlines, ih]

theorem isContentLine_iff (line : List Char) :
    isContentLine line = true ↔ upRx line = false ∧ downRx line = false := by
  simp [isContentLine]

theorem sectionAfter_cons_marker (isMarker : List Char → Bool) (line : List Char)
    (rest : List (List Char)) (h : isMarker line = true) :
    sectionAfter isMarker (line :: rest) = leadLines rest := by
  simp [sectionAfter, leadLines, List.dropWhile_cons, h]

theorem sectionAfter_cons_other (isMarker : List Char → Bool) (line : List Char)
    (rest : List (List Char)) (h : isMarker line = false) :
    sectionAfter isMarker (line :: rest) = sectionAfter isMarker rest := by
  simp [sectionAfter, List.dropWhile_cons, h]

theorem sectionAfter_of_countP_zero (isMarker : List Char → Bool) (lines : List (List Char))
    (h : lines.countP isMarker = 0) : sectionAfter isMarker lines = [] := by
  induction lines with
  | nil => rfl
  | cons line rest ih =>
    rw [List.countP_cons] at h
    have hm : isMarker line = false := by
      cases hl : isMarker line
      · rfl
      · rw [hl] at h; simp at h
    rw [sectionAfter_cons_other isMarker line rest hm]
    exact ih (by rw [hm] at h; simpa using h)

theorem leadLines_cons_marker (line : List Char) (rest : List (List Char))
    (h : isContentLine line = false) : leadLines (line :: rest) = [] := by
  simp [leadLines, List.takeWhile_cons, h]

theorem leadLines_cons_content (line : List Char) (rest : List (List Char))
    (h : isContentLine line = true) : leadLines (line :: rest) = line :: leadLines rest := by
  simp [leadLines, List.takeWhile_cons, h]

/-- The state after one iteration that succeeds. -/
theorem fillStep_ok (version : Nat) (st st1 : fillState) (line : List Char)
    (h : fillStep version st line = .ok st1) :
    (upRx line = true ∧ st.foundUp = false ∧
      st1 = { st with foundUp := true, capturingSection := 1 }) ∨
    (upRx line = false ∧ downRx line = true ∧ st.foundDown = false ∧
      st1 = { st with foundDown := true, capturingSection := 2 }) ∨
    (upRx line = false ∧ downRx line = false ∧ st1 = absorb st [line]) := by
  unfold fillStep at h
  split at h
  · rename_i hu
    split at h
    · cases h
    · rename_i hf
      cases h
      exact Or.inl ⟨hu, by simpa using hf, rfl⟩
  · rename_i hu
    have hu2 : upRx line = false := by simpa using hu
    split at h
    · rename_i hd
      split at h
      · cases h
      · rename_i hf
        cases h
        exact Or.inr (Or.inl ⟨hu2, hd, by simpa using hf, rfl⟩)
    · rename_i hd
      have hd2 : downRx line = false := by simpa using hd
      refine Or.inr (Or.inr ⟨hu2, hd2, ?_⟩)
      unfold absorb
      split at h
      · rename_i h1
        cases h
        simp [h1, unlines]
      · rename_i h1
        split at h
        · rename_i h2
          cases h
          simp [h1, h2, unlines]
        · rename_i h2
          cases h
          simp [h1, h2]

/-- The contents the loop builds: what was captured before, then the lines up
to the next marker when a section is being captured, then the section that
follows the marker among the remaining lines. -/
theorem fillLoop_contents (version : Nat) (lines : List (List Char)) :
    ∀ st st1 : fillState, fillLoop version st lines = .ok st1 →
      st1.upContents = st.upContents ++
        (if st.capturingSection = 1 then unlines (leadLines lines) else []) ++
        unlines (sectionAfter upRx lines) ∧
      st1.downContents = st.downContents ++
        (if st.capturingSection = 2 then unlines (leadLines lines) else []) ++
        unlines (sectionAfter isDownLine lines) := by
  induction lines with
  | nil =>
    intro st st1 h
    simp only [fillLoop] at h
    cases h
    simp [leadLines, sectionAfter, unlines]
  | cons line rest ih =>
    intro st st1 h
    simp only [fillLoop] at h
    cases hs : fillStep version st line with
    | error e => rw [hs] at h; cases h
    | ok st2 =>
      rw [hs] at h
      simp only at h
      obtain ⟨hup, hdown⟩ := ih st2 st1 h
      have hcount := (fillLoop_ok_iff version rest st2).1.1 ⟨st1, h⟩
      rcases fillStep_ok version st st2 line hs with ⟨hu, -, rfl⟩ | ⟨hu, hd, -, rfl⟩ | ⟨hu, hd, rfl⟩
      · have hc : isContentLine line = false := by simp [isContentLine, hu]
        have hdl : isDownLine line = false := by simp [isDownLine, hu]
        have hz : rest.countP upRx = 0 := by
          have := hcount.1
          simp only [Bool.toNat_true] at this
          omega
        rw [hup, hdown, sectionAfter_cons_marker upRx line rest hu,
          sectionAfter_cons_other isDownLine line rest hdl, leadLines_cons_marker line rest hc,
          sectionAfter_of_countP_zero upRx rest hz]
        simp [unlines]
      · have hc : isContentLine line = false := by simp [isContentLine, hd]
        have hdl : isDownLine line = true := by simp [isDownLine, hu, hd]
        have hz : rest.countP isDownLine = 0 := by
          have := hcount.2
          simp only [Bool.toNat_true] at this
          omega
        rw [hup, hdown, sectionAfter_cons_marker isDownLine line rest hdl,
          sectionAfter_cons_other upRx line rest hu, leadLines_cons_marker line rest hc,
          sectionAfter_of_countP_zero isDownLine rest hz]
        simp [unlines]
      · have hc : isContentLine line = true := by simp [isContentLine, hu, hd]
        have hdl : isDownLine line = false := by simp [isDownLine, hd]
        rw [hup, hdown, sectionAfter_cons_other isDownLine line rest hdl,
          sectionAfter_cons_other upRx line rest hu, leadLines_cons_content line rest hc]
        unfold absorb
        by_cases h1 : st.capturingSection = 1
        · simp [h1, unlines]
        · by_cases h2 : st.capturingSection = 2
          · simp [h1, h2, unlines]
          · simp [h1, h2]

/-- The parser's result in terms of the lines the scanner delivers. -/
theorem parseContents_sections (version : Nat) (text : List Char) (c : migrationContents)
    (h : parseContents version text = .ok c) :
    c.up = unlines (sectionAfter upRx (scanLines text)) ∧
    c.down = unlines (sectionAfter isDownLine (scanLines text)) := by
  unfold parseContents at h
  cases hl : fillLoop version fillState.init (scanLines text) with
  | error e => rw [hl] at h; cases h
  | ok st =>
    rw [hl] at h
    simp only at h
    obtain ⟨hup, hdown⟩ := fillLoop_contents version _ _ st hl
    split at h
    · cases h
    · split at h
      · cases h
      · cases h
        simp only [fillState.init] at hup hdown
        exact ⟨by simpa using hup, by simpa using hdown⟩

theorem scanLines_eq_textLines (text : List Char)
    (hfit : ∀ l ∈ rawLines text, byteLen l < MaxScanTokenSize) :
    scanLines text = textLines text := by
  unfold scanLines textLines
  rw [List.takeWhile_eq_self_iff.2]
  intro l hl
  simpa [fitsBuffer] using hfit l hl

theorem plainLine_spec (l : List Char) (h : plainLine l = true) :
    (∀ c ∈ l, c ≠ '\n') ∧ dropCR l = l ∧ fitsBuffer l = true := by
  simp only [plainLine, Bool.and_eq_true, List.all_eq_true, bne_iff_ne, ne_eq,
    decide_eq_true_eq] at h
  obtain ⟨⟨h1, h2⟩, h3⟩ := h
  refine ⟨h1, ?_, h3⟩
  unfold dropCR
  rw [if_neg h2]

theorem scanLines_unlines (ls : List (List Char)) (h : ∀ l ∈ ls, plainLine l = true) :
    scanLines (unlines ls) = ls := by
  unfold scanLines
  rw [rawLines_unlines ls (fun l hl => (plainLine_spec l (h l hl)).1),
    List.takeWhile_eq_self_iff.2 (fun l hl => (plainLine_spec l (h l hl)).2.2)]
  conv_rhs => rw [← List.map_id ls]
  exact List.map_congr_left (fun l hl => (plainLine_spec l (h l hl)).2.1)

theorem fillStep_content (version : Nat) (st : fillState) (line : List Char)
    (h : isContentLine line = true) : fillStep version st line = .ok (absorb st [line]) := by
  obtain ⟨hu, hd⟩ := (isContentLine_iff line).1 h
  unfold fillStep absorb
  simp only [hu, hd, Bool.false_eq_true, if_false, unlines]
  by_cases h1 : st.capturingSection = 1
  · simp [h1]
  · by_cases h2 : st.capturingSection = 2
    · simp [h1, h2]
    · simp [h1, h2]

theorem absorb_nil (st : fillState) : absorb st [] = st := by
  cases st with
  | mk fu fd cap up down =>
    unfold absorb
    by_cases h1 : cap = 1
    · simp [h1, unlines]
    · by_cases h2 : cap = 2
      · simp [h1, h2, unlines]
      · simp [h1, h2]

theorem absorb_cons (st : fillState) (line : List Char) (lines : List (List Char)) :
    absorb (absorb st [line]) lines = absorb st (line :: lines) := by
  unfold absorb
  by_cases h1 : st.capturingSection = 1
  · simp [h1, unlines]
  · by_cases h2 : st.capturingSection = 2
    · simp [h1, h2, unlines]
    · simp [h1, h2]

/-- A run of content lines is absorbed by the section being captured. -/
theorem fillLoop_absorb (version : Nat) (content rest : List (List Char))
    (h : ∀ l ∈ content, isContentLine l = true) :
    ∀ st, fillLoop version st (content ++ rest) = fillLoop version (absorb st content) rest := by
  induction content with
  | nil => intro st; rw [absorb_nil]; rfl
  | cons line content ih =>
    intro st
    rw [List.cons_append, fillLoop, fillStep_content version st line (h line (by simp))]
    simp only
    rw [ih (fun l hl => h l (by simp [hl])), absorb_cons]

theorem fillStep_up (version : Nat) (st : fillState) (line : List Char) (hu : upRx line = true)
    (hf : st.foundUp = false) :
    fillStep version st line = .ok { st with foundUp := true, capturingSection := 1 } := by
  unfold fillStep
  simp [hu, hf]

theorem fillStep_down (version : Nat) (st : fillState) (line : List Char)
    (hd : isDownLine line = true) (hf : st.foundDown = false) :
    fillStep version st line = .ok { st with foundDown := true, capturingSection := 2 } := by
  simp only [isDownLine, Bool.and_eq_true, Bool.not_eq_true'] at hd
  unfold fillStep
  simp [hd.1, hd.2, hf]

/-- A text with the up section first. -/
theorem parseContents_up_first (version : Nat) (P U D : List (List Char)) (mu md : List Char)
    (hP : ∀ l ∈ P, isContentLine l = true) (hU : ∀ l ∈ U, isContentLine l = true)
    (hD : ∀ l ∈ D, isContentLine l = true) (hmu : upRx mu = true) (hmd : isDownLine md = true)
    (hplain : ∀ l ∈ P ++ mu :: (U ++ md :: D), plainLine l = true) :
    parseContents version (unlines (P ++ mu :: (U ++ md :: D))) = .ok ⟨unlines U, unlines D⟩ := by
  unfold parseContents
  rw [scanLines_unlines _ hplain, fillLoop_absorb version P _ hP, fillLoop,
    fillStep_up version _ mu hmu (by simp [absorb, fillState.init])]
  simp only
  rw [fillLoop_absorb version U _ hU, fillLoop,
    fillStep_down version _ md hmd (by simp [absorb, fillState.init])]
  simp only
  rw [← List.append_nil D, fillLoop_absorb version D _ hD]
  simp [fillLoop, absorb, fillState.init]

/-- A text with the down section first. -/
theorem parseContents_down_first (version : Nat) (P U D : List (List Char)) (mu md : List Char)
    (hP : ∀ l ∈ P, isContentLine l = true) (hU : ∀ l ∈ U, isContentLine l = true)
    (hD : ∀ l ∈ D, isContentLine l = true) (hmu : upRx mu = true) (hmd : isDownLine md = true)
    (hplain : ∀ l ∈ P ++ md :: (D ++ mu :: U), plainLine l = true) :
    parseContents version (unlines (P ++ md :: (D ++ mu :: U))) = .ok ⟨unlines U, unlines D⟩ := by
  unfold parseContents
  rw [scanLines_unlines _ hplain, fillLoop_absorb version P _ hP, fillLoop,
    fillStep_down version _ md hmd (by simp [absorb, fillState.init])]
  simp only
  rw [fillLoop_absorb version D _ hD, fillLoop,
    fillStep_up version _ mu hmu (by simp [absorb, fillState.init])]
  simp only
  rw [← List.append_nil U, fillLoop_absorb version U _ hU]
  simp [fillLoop, absorb, fillState.init]

theorem specLinesWithBreaks_line (l rest : List Char) (hl : ∀ c ∈ l, c ≠ '\n') :
    specLinesWithBreaks (l ++ '\n' :: rest) = (l ++ ['\n']) :: specLinesWithBreaks rest := by
  induction l with
  | nil => simp [specLinesWithBreaks]
  | cons c l ih =>
    have hc : (c == '\n') = false := beq_false_of_ne (hl c (by simp))
    have := ih (fun x hx => hl x (by simp [hx]))
    rw [List.cons_append, specLinesWithBreaks, hc, this]
    rfl

theorem specLinesWithBreaks_unlines (ls : List (List Char))
    (h : ∀ l ∈ ls, ∀ c ∈ l, c ≠ '\n') :
    specLinesWithBreaks (unlines ls) = ls.map (· ++ ['\n']) := by
  induction ls with
  | nil => rfl
  | cons l ls ih =>
    rw [unlines, specLinesWithBreaks_line l _ (h l (by simp)),
      ih (fun x hx => h x (by simp [hx]))]
    rfl

theorem chomp_line (l : List Char) (h : plainLine l = true) : chomp (l ++ ['\n']) = l := by
  unfold chomp
  rw [List.getLast?_concat, if_pos rfl, List.dropLast_concat]
  exact (plainLine_spec l h).2.1

theorem dropWhile_withBreaks (p : List Char → Bool) (ls : List (List Char))
    (h : ∀ l ∈ ls, plainLine l = true) :
    (ls.map (· ++ ['\n'])).dropWhile (fun x => p (chomp x)) =
      (ls.dropWhile p).map (· ++ ['\n']) := by
  induction ls with
  | nil => rfl
  | cons l ls ih =>
    rw [List.map_cons, List.dropWhile_cons, List.dropWhile_cons, chomp_line l (h l (by simp))]
    cases p l
    · rfl
    · simp only [if_true]
      exact ih (fun x hx => h x (by simp [hx]))

theorem takeWhile_withBreaks (p : List Char → Bool) (ls : List (List Char))
    (h : ∀ l ∈ ls, plainLine l = true) :
    (ls.map (· ++ ['\n'])).takeWhile (fun x => p (chomp x)) =
      (ls.takeWhile p).map (· ++ ['\n']) := by
  induction ls with
  | nil => rfl
  | cons l ls ih =>
    rw [List.map_cons, List.takeWhile_cons, List.takeWhile_cons, chomp_line l (h l (by simp))]
    cases p l
    · rfl
    · simp only [if_true, List.map_cons]
      rw [ih (fun x hx => h x (by simp [hx]))]

theorem foldr_append_withBreaks (ls : List (List Char)) :
    (ls.map (· ++ ['\n'])).foldr (· ++ ·) [] = unlines ls := by
  induction ls with
  | nil => rfl
  | cons l ls ih => simp [unlines, ih]

/-- On a text whose lines each end in one newline, the lines of a section
rejoined with newlines are the text of those lines with their line breaks. -/
theorem specSectionText_unlines (isMarker : List Char → Bool) (ls : List (List Char))
    (h : ∀ l ∈ ls, plainLine l = true) :
    specSectionText isMarker (unlines ls) = unlines (sectionAfter isMarker ls) := by
  unfold specSectionText sectionAfter
  rw [specLinesWithBreaks_unlines ls (fun l hl => (plainLine_spec l (h l hl)).1),
    dropWhile_withBreaks (fun l => !isMarker l) ls h, ← List.map_drop,
    takeWhile_withBreaks isContentLine _ ?_, foldr_append_withBreaks]
  intro l hl
  exact h l ((List.dropWhile_sublist _).subset (List.mem_of_mem_drop hl))

/-- C11 as stated fails: in `crlfText` every line ends in carriage return and
newline; the text of the line after the forward marker, with its line break
unmodified, is `A;\r\n`, the parser returns `A;\n`, which occurs nowhere in
the file text, and likewise `B;\n` for the down section. -/
theorem crlf_line_breaks_are_rewritten :
    parseContents 1 crlfText = .ok ⟨"A;\n".toList, "B;\n".toList⟩ ∧
    specSectionText upRx crlfText = "A;\r\n".toList ∧
    specSectionText isDownLine crlfText = "B;\r\n".toList ∧
    ¬ ("A;\n".toList <:+: crlfText) ∧ ¬ ("B;\n".toList <:+: crlfText) := by
  decide

/-- C11, amended. For a text whose lines all fit the scanner's buffer and on
which parsing succeeds, the up-SQL is made of the lines strictly after the
forward marker line and before the next marker line or the end of the file,
in order, each line without its line break (and without a carriage return
before it) and followed by one newline; the down-SQL likewise for the backward
marker line. Marker lines, with their inline text, and the lines before the
first marker are in neither. When every line of the text ends in one newline,
without a carriage return, this is the text of those lines with their line
breaks unmodified. The result is the same whether the up section or the down
section comes first: with lines `P` before the first marker, an up section
`U` and a down section `D`, both orders give the lines of `U` and the lines
of `D`. -/
theorem sections_are_lines_rejoined_with_newlines (version : Nat) :
    (∀ (text : List Char) (c : migrationContents),
      (∀ l ∈ rawLines text, byteLen l < MaxScanTokenSize) →
      parseContents version text = .ok c →
      c.up = unlines (sectionAfter upRx (textLines text)) ∧
      c.down = unlines (sectionAfter isDownLine (textLines text))) ∧
    (∀ (ls : List (List Char)) (c : migrationContents),
      (∀ l ∈ ls, plainLine l = true) →
      parseContents version (unlines ls) = .ok c →
      c.up = specSectionText upRx (unlines ls) ∧
      c.down = specSectionText isDownLine (unlines ls)) ∧
    (∀ (P U D : List (List Char)) (mu md : List Char),
      (∀ l ∈ P ++ (U ++ D), isContentLine l = true) →
      upRx mu = true → isDownLine md = true →
      (∀ l ∈ mu :: md :: (P ++ (U ++ D)), plainLine l = true) →
      parseContents version (unlines (P ++ mu :: (U ++ md :: D))) =
        .ok ⟨unlines U, unlines D⟩ ∧
      parseContents version (unlines (P ++ md :: (D ++ mu :: U))) =
        .ok ⟨unlines U, unlines D⟩) := by
  refine ⟨?_, ?_, ?_⟩
  · intro text c hfit hok
    rw [← scanLines_eq_textLines text hfit]
    exact parseContents_sections version text c hok
  · intro ls c hplain hok
    have := parseContents_sections version _ c hok
    rw [scanLines_unlines ls hplain] at this
    rw [specSectionText_unlines upRx ls hplain, specSectionText_unlines isDownLine ls hplain]
    exact this
  · intro P U D mu md hcontent hmu hmd hplain
    have hP : ∀ l ∈ P, isContentLine l = true := fun l hl => hcontent l (by simp [hl])
    have hU : ∀ l ∈ U, isContentLine l = true := fun l hl => hcontent l (by simp [hl])
    have hD : ∀ l ∈ D, isContentLine l = true := fun l hl => hcontent l (by simp [hl])
    constructor
    · apply parseContents_up_first version P U D mu md hP hU hD hmu hmd
      intro l hl
      apply hplain
      simp only [List.mem_append, List.mem_cons] at hl ⊢
      tauto
    · apply parseContents_down_first version P U D mu md hP hU hD hmu hmd
      intro l hl
      apply hplain
      simp only [List.mem_append, List.mem_cons] at hl ⊢
      tauto

/-- C11, amended, witness: `mixedText` has a line before the first marker,
the down section first, inline text on the forward marker line, a line ending
in carriage return and newline, and no line break at the end; and the two
orders of one up section and one down section. -/
theorem sections_are_lines_rejoined_with_newlines_witness :
    parseContents 1 mixedText = .ok ⟨"A1;\nA2;\n".toList, "B;\n".toList⟩ ∧
    ("A1;\nA2;\n".toList = unlines (sectionAfter upRx (textLines mixedText)) ∧
      "B;\n".toList = unlines (sectionAfter isDownLine (textLines mixedText))) ∧
    ("U1;\n".toList =
        specSectionText upRx (unlines ["-- +up".toList, "U1;".toList, "-- +down".toList, "D1;".toList]) ∧
      "D1;\n".toList =
        specSectionText isDownLine
          (unlines ["-- +up".toList, "U1;".toList, "-- +down".toList, "D1;".toList])) ∧
    (parseContents 1 (unlines (["note".toList] ++ "-- +up now".toList ::
        (["A1;".toList, "A2;".toList] ++ "-- +down".toList :: ["B;".toList]))) =
        .ok ⟨unlines ["A1;".toList, "A2;".toList], unlines ["B;".toList]⟩ ∧
      parseContents 1 (unlines (["note".toList] ++ "-- +down".toList ::
        (["B;".toList] ++ "-- +up now".toList :: ["A1;".toList, "A2;".toList]))) =
        .ok ⟨unlines ["A1;".toList, "A2;".toList], unlines ["B;".toList]⟩) :=
  ⟨by decide,
    (sections_are_lines_rejoined_with_newlines 1).1 mixedText
      ⟨"A1;\nA2;\n".toList, "B;\n".toList⟩ (by decide) (by decide),
    (sections_are_lines_rejoined_with_newlines 1).2.1
      ["-- +up".toList, "U1;".toList, "-- +down".toList, "D1;".toList]
      ⟨"U1;\n".toList, "D1;\n".toList⟩ (by decide) (by decide),
    (sections_are_lines_rejoined_with_newlines 1).2.2 ["note".toList]
      ["A1;".toList, "A2;".toList] ["B;".toList] "-- +up now".toList "-- +down".toList
      (by decide) (by decide) (by decide) (by decide)⟩

/-! ## C12 -/

theorem foldLitAt_iff (lit : List Char) :
    ∀ s : List Char, foldLitAt lit s = true ↔
      ∃ l rest, s = l ++ rest ∧ l.map Char.toLower = lit := by
  induction lit with
  | nil =>
    intro s
    simp only [foldLitAt, true_iff]
    exact ⟨[], s, rfl, rfl⟩
  | cons p ps ih =>
    intro s
    cases s with
    | nil =>
      simp only [foldLitAt, Bool.false_eq_true, false_iff]
      rintro ⟨l, rest, hs, hl⟩
      cases l with
      | nil => simp at hl
      | cons a l => simp at hs
    | cons c t =>
      simp only [foldLitAt, Bool.and_eq_true, beq_iff_eq, ih t]
      constructor
      · rintro ⟨hc, l, rest, rfl, rfl⟩
        exact ⟨c :: l, rest, rfl, by simp [hc]⟩
      · rintro ⟨l, rest, hs, hl⟩
        cases l with
        | nil => simp at hl
        | cons a l =>
          simp only [List.cons_append, List.cons.injEq] at hs
          simp only [List.map_cons, List.cons.injEq] at hl
          obtain ⟨rfl, rfl⟩ := hs
          exact ⟨hl.1, l, rest, rfl, hl.2⟩

theorem spacesLitAt_iff (lit : List Char) :
    ∀ s : List Char, spacesLitAt lit s = true ↔
      ∃ ws r, s = ws ++ r ∧ (∀ x ∈ ws, isSpace x = true) ∧ foldLitAt lit r = true := by
  intro s
  induction s with
  | nil =>
    simp only [spacesLitAt]
    constructor
    · intro h; exact ⟨[], [], rfl, by simp, h⟩
    · rintro ⟨ws, r, hs, -, hr⟩
      have : r = [] := by
        cases ws with
        | nil => simpa using hs.symm
        | cons a ws => simp at hs
      rw [this] at hr
      exact hr
  | cons c t ih =>
    simp only [spacesLitAt, Bool.or_eq_true, Bool.and_eq_true, ih]
    constructor
    · rintro (⟨hc, ws, r, rfl, hws, hr⟩ | h)
      · refine ⟨c :: ws, r, rfl, ?_, hr⟩
        intro x hx
        rcases List.mem_cons.1 hx with rfl | hx
        · exact hc
        · exact hws x hx
      · exact ⟨[], c :: t, rfl, by simp, h⟩
    · rintro ⟨ws, r, hs, hws, hr⟩
      cases ws with
      | nil =>
        simp only [List.nil_append] at hs
        rw [← hs] at hr
        exact Or.inr hr
      | cons a ws =>
        simp only [List.cons_append, List.cons.injEq] at hs
        obtain ⟨rfl, rfl⟩ := hs
        exact Or.inl ⟨hws c (by simp), ws, r, rfl, fun x hx => hws x (by simp [hx]), hr⟩

theorem markerAt_iff (word s : List Char) :
    markerAt word s = true ↔ ∃ t, s = '-' :: '-' :: t ∧ spacesLitAt ('+' :: word) t = true := by
  match s with
  | [] => simp [markerAt]
  | [a] => simp [markerAt]
  | a :: b :: t =>
    simp only [markerAt, Bool.and_eq_true, beq_iff_eq, List.cons.injEq]
    constructor
    · rintro ⟨⟨rfl, rfl⟩, h⟩
      exact ⟨t, ⟨rfl, rfl, rfl⟩, h⟩
    · rintro ⟨t2, ⟨rfl, rfl, rfl⟩, h⟩
      exact ⟨⟨rfl, rfl⟩, h⟩

theorem markerMatch_iff (word : List Char) :
    ∀ s : List Char, markerMatch word s = true ↔
      ∃ pre suf, s = pre ++ suf ∧ markerAt word suf = true := by
  intro s
  induction s with
  | nil =>
    simp only [markerMatch]
    constructor
    · intro h; exact ⟨[], [], rfl, h⟩
    · rintro ⟨pre, suf, hs, h⟩
      have : suf = [] := by
        cases pre with
        | nil => simpa using hs.symm
        | cons a pre => simp at hs
      rw [this] at h
      exact h
  | cons c t ih =>
    simp only [markerMatch, Bool.or_eq_true, ih]
    constructor
    · rintro (h | ⟨pre, suf, rfl, h⟩)
      · exact ⟨[], c :: t, rfl, h⟩
      · exact ⟨c :: pre, suf, rfl, h⟩
    · rintro ⟨pre, suf, hs, h⟩
      cases pre with
      | nil =>
        simp only [List.nil_append] at hs
        rw [← hs] at h
        exact Or.inl h
      | cons a pre =>
        simp only [List.cons_append, List.cons.injEq] at hs
        obtain ⟨rfl, rfl⟩ := hs
        exact Or.inr ⟨pre, suf, rfl, h⟩

/-- A marker pattern matches a line exactly when the line has the marker's
shape at some place. -/
theorem markerMatch_iff_shape (word line : List Char) :
    markerMatch word line = true ↔ MarkerShape word line := by
  rw [markerMatch_iff]
  constructor
  · rintro ⟨pre, suf, rfl, h⟩
    obtain ⟨t, rfl, ht⟩ := (markerAt_iff word suf).1 h
    obtain ⟨ws, r, rfl, hws, hr⟩ := (spacesLitAt_iff _ t).1 ht
    obtain ⟨lit, rest, rfl, hlit⟩ := (foldLitAt_iff _ r).1 hr
    exact ⟨pre, ws, lit, rest, rfl, hws, hlit⟩
  · rintro ⟨pre, ws, lit, rest, rfl, hws, hlit⟩
    refine ⟨pre, _, rfl, (markerAt_iff word _).2 ⟨_, rfl, ?_⟩⟩
    exact (spacesLitAt_iff _ _).2 ⟨ws, _, rfl, hws, (foldLitAt_iff _ _).2 ⟨lit, rest, rfl, hlit⟩⟩

/-- A line that starts with the marker is matched by the marker's pattern. -/
theorem markerMatch_of_specMarkerLine (word line : List Char)
    (h : specMarkerLine word line = true) : markerMatch word line = true := by
  match line, h with
  | a :: b :: c :: t, h =>
    simp only [specMarkerLine, Bool.and_eq_true, beq_iff_eq] at h
    obtain ⟨⟨⟨rfl, rfl⟩, rfl⟩, hlit⟩ := h
    apply (markerMatch_iff word _).2
    refine ⟨[], _, rfl, (markerAt_iff word _).2 ⟨_, rfl, ?_⟩⟩
    exact (spacesLitAt_iff _ _).2 ⟨[' '], t, rfl, by decide, hlit⟩

/-- C12 as stated fails: the line `SELECT 1; -- +up` does not start with the
marker, yet the forward pattern matches it and the loop treats it as a marker.
Inside an up section it is a duplicate (fatal error), not content; and a text
whose only marker texts come after other content on their lines is parsed as
having both sections. -/
theorem marker_after_other_content_is_a_marker :
    specMarkerLine ['u', 'p'] "SELECT 1; -- +up".toList = false ∧
    upRx "SELECT 1; -- +up".toList = true ∧
    parseContents 1 trailingMarkerText = .error (.duplicateUp 1) ∧
    parseContents 1 inlineMarkersText = .ok ⟨"A;\n".toList, "B;\n".toList⟩ := by
  decide

/-- C12, amended. The markers are case-insensitive and are looked for
anywhere in the line: the forward pattern matches a line exactly when the line
holds, at some place, `--`, white space (possibly none) and `+up` in any
letter case, and the backward pattern likewise with `+down`; in particular
every line that starts with `-- +up` (or `-- +down`) is matched. A line the
forward pattern matches is the forward marker: it is not captured, it starts
the up section, and it is a fatal duplicate when the up section was already
found. A line only the backward pattern matches is the backward marker in the
same way. Every other line is captured as content of the current section and
changes nothing else. -/
theorem markers_match_anywhere_in_the_line (line : List Char) :
    (upRx line = true ↔ MarkerShape ['u', 'p'] line) ∧
    (downRx line = true ↔ MarkerShape ['d', 'o', 'w', 'n'] line) ∧
    (specMarkerLine ['u', 'p'] line = true → upRx line = true) ∧
    (specMarkerLine ['d', 'o', 'w', 'n'] line = true → downRx line = true) ∧
    (∀ (version : Nat) (st : fillState),
      (upRx line = true → fillStep version st line =
        if st.foundUp = true then .error (.duplicateUp version)
        else .ok { st with foundUp := true, capturingSection := 1 }) ∧
      (upRx line = false → downRx line = true → fillStep version st line =
        if st.foundDown = true then .error (.duplicateDown version)
        else .ok { st with foundDown := true, capturingSection := 2 }) ∧
      (upRx line = false → downRx line = false →
        fillStep version st line = .ok (absorb st [line]))) := by
  refine ⟨markerMatch_iff_shape _ line, markerMatch_iff_shape _ line,
    markerMatch_of_specMarkerLine _ line, markerMatch_of_specMarkerLine _ line, ?_⟩
  intro version st
  refine ⟨fun hu => ?_, fun hu hd => ?_, fun hu hd => ?_⟩
  · unfold fillStep
    rw [if_pos hu]
  · unfold fillStep
    rw [if_neg (by simp [hu]), if_pos hd]
  · exact fillStep_content version st line (by simp [isContentLine, hu, hd])

/-- C12, amended, witness: `--+UP (apply)` and `SELECT 1; -- +up` have the
forward marker's shape, `-- +Down` starts with the backward marker, and
`SELECT 1;` is content of the up section being captured. -/
theorem markers_match_anywhere_in_the_line_witness :
    MarkerShape ['u', 'p'] "--+UP (apply)".toList ∧
    MarkerShape ['u', 'p'] "SELECT 1; -- +up".toList ∧
    downRx "-- +Down".toList = true ∧
    fillStep 1 ⟨true, false, 1, [], []⟩ "SELECT 1; -- +up".toList = .error (.duplicateUp 1) ∧
    fillStep 1 ⟨true, false, 1, [], []⟩ "SELECT 1;".toList =
      .ok ⟨true, false, 1, "SELECT 1;\n".toList, []⟩ :=
  ⟨(markers_match_anywhere_in_the_line "--+UP (apply)".toList).1.1 (by decide),
    (markers_match_anywhere_in_the_line "SELECT 1; -- +up".toList).1.1 (by decide),
    (markers_match_anywhere_in_the_line "-- +Down".toList).2.2.2.1 (by decide),
    ((markers_match_anywhere_in_the_line "SELECT 1; -- +up".toList).2.2.2.2 1
      ⟨true, false, 1, [], []⟩).1 (by decide),
    ((markers_match_anywhere_in_the_line "SELECT 1;".toList).2.2.2.2 1
      ⟨true, false, 1, [], []⟩).2.2 (by decide) (by decide)⟩

end DbMigrator
